import Mathlib

/-! The k-mer counting routines of `src/Rcpp/kmer.cpp`.

A shallow embedding of the k-mer routines of `kmer.cpp` and proofs about them.

* A `char` is its code (a `Nat`); a `std::string` is the list of its codes.  The symbols the
  alphabet routines are used with are ASCII, where `char` comparison and the byte-wise comparison
  of `std::string::compare` agree with the comparison of the codes.
* A `std::map` is the list of its entries in ascending key order; `mapFind` is `find`,
  `mapSet` is `m[k] = v`, and iteration is the list order.
* `unsigned long long` / `size_t` arithmetic is taken modulo `2 ^ 64`; an `int` is an `Int`.
* Operations that can throw or have no defined result return `Except Fault _`; the `while`
  loops whose exit depends on the data take a budget of iterations and yield
  `Fault.no_return` when it runs out.
-/

namespace Kmer

/-! ## Strings -/

/-- A `std::string`, as the list of the codes of its characters. -/
abbrev CString := List Nat

/-- The codes of a string literal. -/
def str (s : String) : CString := s.toList.map Char.toNat

/-- Modulus of `unsigned long long` and of `size_t`. -/
def ULL : Nat := 2 ^ 64

/-- Largest `int`. -/
def INT_MAX : Int := 2 ^ 31 - 1

/-- The value `std::string::npos`. -/
def npos : Nat := ULL - 1

/-- Conversion of an `int` to `size_t` / `unsigned long long`. -/
def toSize (k : Int) : Nat := (k % (ULL : Int)).toNat

/-- What can go wrong in a run. -/
inductive Fault where
  /-- `std::out_of_range`, thrown by `substr` when `pos > size()`. -/
  | out_of_range
  /-- No defined result: dereferencing `rend()`, `back()` of an empty string, indexing a
  string past its terminator, signed overflow. -/
  | undefined
  /-- The loop has not ended within the budget of iterations. -/
  | no_return
  deriving DecidableEq, Repr

/-- The comparison `a < b` of two `std::string`s: lexicographic, a proper prefix is smaller. -/
def strLt : CString → CString → Bool
  | [], [] => false
  | [], _ :: _ => true
  | _ :: _, [] => false
  | a :: as, b :: bs => if a < b then true else if b < a then false else strLt as bs

/-- The comparison `a < b` of two `unsigned long long` keys. -/
def natLt (a b : Nat) : Bool := decide (a < b)

/-- `std::sort(b.begin(), b.end())`: the characters of `b` in ascending order. -/
def sortChars (b : CString) : CString := List.insertionSort (fun a c => a ≤ c) b

/-- `b.find(c)` for a character `c`: the first position of `c`, `npos` when there is none. -/
def find (b : CString) (c : Nat) : Nat := if c ∈ b then b.indexOf c else npos

/-- `b[j]`: the character at `j`, the terminator at `j = size()`, nothing defined beyond. -/
def index (b : CString) (j : Nat) : Except Fault Nat :=
  if h : j < b.length then .ok b[j]
  else if j = b.length then .ok 0
  else .error .undefined

/-- `x.substr(pos, count)`: throws when `pos > size()`, else the characters from `pos`,
at most `count` of them. -/
def substr (x : CString) (pos count : Nat) : Except Fault CString :=
  if x.length < pos then .error .out_of_range else .ok ((x.drop pos).take count)

/-! ## Ordered maps -/

/-- A `std::map` keyed by `κ` with `unsigned long long` values: its entries in key order. -/
abbrev Map (κ : Type) := List (κ × Nat)

/-- `m.find(k)`: the value of the entry whose key is equivalent to `k` under the comparison. -/
def mapFind {κ : Type} (lt : κ → κ → Bool) : Map κ → κ → Option Nat
  | [], _ => none
  | (k', v) :: rest, k => if !lt k k' && !lt k' k then some v else mapFind lt rest k

/-- `m[k] = v`: overwrite the entry of `k`, or insert one at its place in the order. -/
def mapSet {κ : Type} (lt : κ → κ → Bool) : Map κ → κ → Nat → Map κ
  | [], k, v => [(k, v)]
  | (k', v') :: rest, k, v =>
    if lt k k' then (k, v) :: (k', v') :: rest
    else if lt k' k then (k', v') :: mapSet lt rest k v
    else (k', v) :: rest

/-- `m[k]` read: the value of `k`, after inserting `k ↦ 0` when `k` was absent. -/
def mapIndex {κ : Type} (lt : κ → κ → Bool) (m : Map κ) (k : κ) : Nat × Map κ :=
  match mapFind lt m k with
  | some v => (v, m)
  | none => (0, mapSet lt m k 0)

/-- The keys of a map, in iteration order. -/
def keys {κ : Type} (m : Map κ) : List κ := m.map Prod.fst

/-- The values of a map, in iteration order. -/
def values {κ : Type} (m : Map κ) : List Nat := m.map Prod.snd

/-- A `std::map<std::string, unsigned long long>`. -/
abbrev Dict := Map CString

/-! ## `permute_kmers` -/

/-- The inner `while` of the successor step and the three statements after it, read on the
characters of `working_string` from the right end (`rbegin()` first).  A character not below
`max_char` is reset to `b.front()` and the scan moves on; at the first character below
`max_char` the scan breaks and that character becomes `b[b.find(c) + 1]`.  Reaching `rend()`
leaves `*working_char` without a defined value. -/
def carry (b : CString) (max_char front : Nat) : CString → Except Fault CString
  | [] => .error .undefined
  | c :: rest =>
    if c < max_char then
      match index b ((find b c + 1) % ULL) with
      | .ok new_char => .ok (new_char :: rest)
      | .error e => .error e
    else
      match carry b max_char front rest with
      | .ok rest' => .ok (front :: rest')
      | .error e => .error e

/-- One pass of the body of the outer `while`: the string pushed after `working_string`. -/
def successor (b : CString) (max_char front : Nat) (working_string : CString) :
    Except Fault CString :=
  match carry b max_char front working_string.reverse with
  | .ok r => .ok r.reverse
  | .error e => .error e

/-- The loop `while (output_s.back() < max_string) { ... push_back ... }`. -/
def permute_loop (b : CString) (max_char front : Nat) (max_string : CString) :
    Nat → List CString → Except Fault (List CString)
  | fuel, output_s =>
    match output_s.getLast? with
    | none => .error .undefined
    | some back =>
      if strLt back max_string then
        match fuel with
        | 0 => .error .no_return
        | fuel + 1 =>
          match successor b max_char front back with
          | .ok working_string =>
            permute_loop b max_char front max_string fuel (output_s ++ [working_string])
          | .error e => .error e
      else .ok output_s

/-- The function `permute_kmers(k, b)`, run for at most `fuel` passes of its outer loop. -/
def permute_kmers (fuel : Nat) (k : Int) (b : CString) : Except Fault (List CString) :=
  let b := sortChars b
  match b.getLast?, b.head? with
  | some max_char, some min_char =>
    let min_string := List.replicate k.toNat min_char
    let max_string := List.replicate k.toNat max_char
    permute_loop b max_char min_char max_string fuel [min_string]
  | _, _ => .error .undefined

/-! ## `generate_kmer_perm_dict` -/

/-- The loop `while (output_s.rbegin()->first < max_string)` with the body ending in
`output_s[working_string] = 0`. -/
def perm_dict_loop (b : CString) (max_char front : Nat) (max_string : CString) :
    Nat → Dict → Except Fault Dict
  | fuel, output_s =>
    match output_s.getLast? with
    | none => .error .undefined
    | some (back, _) =>
      if strLt back max_string then
        match fuel with
        | 0 => .error .no_return
        | fuel + 1 =>
          match successor b max_char front back with
          | .ok working_string =>
            perm_dict_loop b max_char front max_string fuel
              (mapSet strLt output_s working_string 0)
          | .error e => .error e
      else .ok output_s

/-- The function `generate_kmer_perm_dict(k, b)`, run for at most `fuel` passes of its loop. -/
def generate_kmer_perm_dict (fuel : Nat) (k : Int) (b : CString) : Except Fault Dict :=
  let b := sortChars b
  match b.getLast?, b.head? with
  | some max_char, some min_char =>
    let min_string := List.replicate k.toNat min_char
    let max_string := List.replicate k.toNat max_char
    perm_dict_loop b max_char min_char max_string fuel (mapSet strLt [] min_string 0)
  | _, _ => .error .undefined

/-- The default alphabet argument `"ACTG"`. -/
def ACTG : CString := [65, 67, 84, 71]

/-! ## `make_kmer_paired_list` -/

/-- The test `kmer_i.find("N") != std::string::npos`. -/
def hasN (kmer_i : CString) : Bool := kmer_i.contains 78

/-- One pass of the body of the counting loop on the window `kmer_i`. -/
def count_step (drop_n : Bool) (kmer_dict : Dict) (kmer_i : CString) : Dict :=
  if drop_n && hasN kmer_i then kmer_dict
  else
    match mapFind strLt kmer_dict kmer_i with
    | none => mapSet strLt kmer_dict kmer_i 1
    | some v =>
      if v = 0 then mapSet strLt kmer_dict kmer_i 1
      else mapSet strLt kmer_dict kmer_i ((v + 1) % ULL)

/-- The loop `for (i = 0; i < n; i++)` of `make_kmer_paired_list`: the first argument is the
number of passes still to run, the second the value of `i`. -/
def count_loop (x : CString) (kmer : Int) (drop_n : Bool) : Nat → Nat → Dict → Except Fault Dict
  | 0, _, kmer_dict => .ok kmer_dict
  | passes + 1, i, kmer_dict =>
    match substr x i (toSize kmer) with
    | .ok kmer_i => count_loop x kmer drop_n passes (i + 1) (count_step drop_n kmer_dict kmer_i)
    | .error e => .error e

/-- The bound `n = x.size() + 1 - kmer` of the counting loops, in `unsigned long long`. -/
def windowCount (x : CString) (kmer : Int) : Nat :=
  ((((x.length + 1 : Nat) : Int) - kmer) % (ULL : Int)).toNat

/-- The function `make_kmer_paired_list(x, kmer, drop_n, kmer_dict)`. -/
def make_kmer_paired_list (x : CString) (kmer : Int) (drop_n : Bool) (kmer_dict : Dict) :
    Except Fault Dict :=
  count_loop x kmer drop_n (windowCount x kmer) 0 kmer_dict

/-! ## `convert_kmer_string_to_index` -/

/-- The first loop of `convert_kmer_string_to_index`: in key order, `i->second = index;
index++`.  The increment of an `int` equal to `INT_MAX` has no defined result. -/
def assign_ranks : Dict → Int → Except Fault Dict
  | [], _ => .ok []
  | (s, _) :: rest, index =>
    if INT_MAX < index + 1 then .error .undefined
    else
      match assign_ranks rest (index + 1) with
      | .ok r => .ok ((s, toSize index) :: r)
      | .error e => .error e

/-- The second loop of `convert_kmer_string_to_index`: for each entry of `x` in key order,
`output_dict[perms_dict[i->first]] = i->second`. -/
def translate : Dict → Dict → Map Nat → Map Nat
  | [], _, output_dict => output_dict
  | (s, c) :: rest, perms_dict, output_dict =>
    let r := mapIndex strLt perms_dict s
    translate rest r.2 (mapSet natLt output_dict r.1 c)

/-- The function `convert_kmer_string_to_index(x, k, index)`; `fuel` is the budget of the
loop of `generate_kmer_perm_dict`. -/
def convert_kmer_string_to_index (fuel : Nat) (x : Dict) (k : Int) (index : Int) :
    Except Fault (Map Nat) :=
  match generate_kmer_perm_dict fuel k ACTG with
  | .ok perms_dict =>
    match assign_ranks perms_dict index with
    | .ok ranked => .ok (translate x ranked [])
    | .error e => .error e
  | .error e => .error e

/-! ## `kmers` and `kmers_pointed` -/

/-- The R list that an exported function returns. -/
inductive RList where
  /-- `List()`. -/
  | empty
  /-- The list with the columns `kmer_string` and `kmer_value`. -/
  | strings (kmer_string : List CString) (kmer_value : List Nat)
  /-- The list with the columns `kmer_index` and `kmer_value`. -/
  | indices (kmer_index : List Nat) (kmer_value : List Nat)
  /-- `List::create(v)` for a vector of counts. -/
  | counts (v : List Nat)
  deriving DecidableEq, Repr

/-- The overload of `wrap_custom` for a string-keyed map. -/
def wrap_custom (dict : Dict) : RList := .strings (keys dict) (values dict)

/-- The overload of `wrap_custom` for an index-keyed map. -/
def wrap_custom_index (dict : Map Nat) : RList := .indices (keys dict) (values dict)

/-- The template `is_valid_dna_string`. -/
def is_valid_dna_string (dna : CString) : Bool := decide (0 < dna.length)

/-- One pass of the body of the loop of `kmers` on the window `kmer_i`. -/
def kmers_step (kmer_dict : Dict) (kmer_i : CString) : Dict :=
  match mapFind strLt kmer_dict kmer_i with
  | none => mapSet strLt kmer_dict kmer_i 1
  | some v => mapSet strLt kmer_dict kmer_i ((v + 1) % ULL)

/-- The loop `for (unsigned int i = 0; i < n; i++)` of `kmers`; the counter is taken modulo
`2 ^ 32`. -/
def kmers_loop (x : CString) (kmer : Int) (n : Nat) : Nat → Nat → Dict → Except Fault Dict
  | fuel, i, kmer_dict =>
    if i < n then
      match fuel with
      | 0 => .error .no_return
      | fuel + 1 =>
        match substr x i (toSize kmer) with
        | .ok kmer_i => kmers_loop x kmer n fuel ((i + 1) % 2 ^ 32) (kmers_step kmer_dict kmer_i)
        | .error e => .error e
    else .ok kmer_dict

/-- The function `kmers(x, kmer)`, run for at most `fuel` passes of its loop. -/
def kmers (fuel : Nat) (x : CString) (kmer : Int) : Except Fault RList :=
  match kmers_loop x kmer (windowCount x kmer) fuel 0 [] with
  | .ok kmer_dict => .ok (.strings (keys kmer_dict) (values kmer_dict))
  | .error e => .error e

/-- The function `kmers_pointed`; `fuel` is the budget of the loop of
`generate_kmer_perm_dict`. -/
def kmers_pointed (fuel : Nat) (x : CString) (kmer : Int)
    (simplify anchor clean_up key_as_int starting_index : Bool) : Except Fault RList :=
  if !is_valid_dna_string x then .ok .empty
  else if key_as_int then
    match make_kmer_paired_list x kmer clean_up [] with
    | .ok string_key =>
      match convert_kmer_string_to_index fuel string_key kmer
          (if starting_index then 1 else 0) with
      | .ok int_key => .ok (wrap_custom_index int_key)
      | .error e => .error e
    | .error e => .error e
  else if anchor then
    match generate_kmer_perm_dict fuel kmer ACTG with
    | .ok mapped =>
      if simplify then
        match make_kmer_paired_list x kmer clean_up mapped with
        | .ok temp_dict => .ok (.counts (values temp_dict))
        | .error e => .error e
      else
        match make_kmer_paired_list x kmer clean_up mapped with
        | .ok d => .ok (wrap_custom d)
        | .error e => .error e
    | .error e => .error e
  else if simplify then
    match make_kmer_paired_list x kmer clean_up [] with
    | .ok temp_dict => .ok (.counts (values temp_dict))
    | .error e => .error e
  else
    match make_kmer_paired_list x kmer clean_up [] with
    | .ok d => .ok (wrap_custom d)
    | .error e => .error e

/-! ## Notions used in the statements -/

/-- A comparison that is a strict total order. -/
structure StrictOrder {κ : Type} (lt : κ → κ → Bool) : Prop where
  irrefl : ∀ a, lt a a = false
  trans : ∀ a b c, lt a b = true → lt b c = true → lt a c = true
  tri : ∀ a b, lt a b = false → lt b a = false → a = b

/-- The entries of a map are in strictly ascending key order. -/
def Sorted {κ : Type} (lt : κ → κ → Bool) (m : Map κ) : Prop :=
  (keys m).Pairwise (fun a b => lt a b = true)

/-- The window of `x` that starts at `i` and has `k` characters. -/
def window (x : CString) (k i : Nat) : CString := (x.drop i).take k

/-- The windows of `x` of length `k`, by start index `0 .. |x| - k`. -/
def windows (x : CString) (k : Nat) : List CString :=
  (List.range (x.length + 1 - k)).map (window x k)

/-- The windows that the counting loop counts: all of them, or those without `N` when
`drop_n` is set. -/
def counted (drop_n : Bool) (ws : List CString) : List CString :=
  ws.filter (fun w => !(drop_n && hasN w))

/-- The `k` digits of `i` in base `|b|`, least significant first, each digit `j` written as the
symbol `b[j]`. -/
def digitsLE (b : CString) : Nat → Nat → CString
  | 0, _ => []
  | k + 1, i => b.getD (i % b.length) 0 :: digitsLE b k (i / b.length)

/-- The string of length `k` over `b` whose base-`|b|` value is `i`, most significant symbol
first. -/
def kth (b : CString) (k i : Nat) : CString := (digitsLE b k i).reverse

/-- The strings of length `k` over `b`, by ascending base-`|b|` value. -/
def kmerUniverse (b : CString) (k : Nat) : List CString :=
  (List.range (b.length ^ k)).map (kth b k)

/-- The base-4 digit of a symbol: `A = 0`, `C = 1`, `G = 2`, `T = 3`. -/
def baseDigit (c : Nat) : Nat :=
  if c = 65 then 0 else if c = 67 then 1 else if c = 71 then 2 else 3

/-- The base-4 value of a string over `{A,C,G,T}`, most significant symbol first. -/
def rank4 (s : CString) : Nat := s.foldl (fun acc c => 4 * acc + baseDigit c) 0

/-- The rank under which `convert_kmer_string_to_index` writes the count of the key `s`:
the base-4 value plus the offset for a string of length `k` over `{A,C,G,T}`, and the
default-inserted `0` for any other key. -/
def rankOrZero (k : Nat) (index : Int) (s : CString) : Nat :=
  if s.length = k ∧ ∀ c ∈ s, c ∈ ACTG then rank4 s + index.toNat else 0

/-! ## The order on strings -/

theorem strLt_irrefl (a : CString) : strLt a a = false := by
  induction a with
  | nil => rfl
  | cons c cs ih => simp [strLt, ih]

theorem strLt_trans (a b c : CString) (h1 : strLt a b = true) (h2 : strLt b c = true) :
    strLt a c = true := by
  induction a generalizing b c with
  | nil =>
    cases b with
    | nil => simp [strLt] at h1
    | cons y ys =>
      cases c with
      | nil => simp [strLt] at h2
      | cons z zs => simp [strLt]
  | cons x xs ih =>
    cases b with
    | nil => simp [strLt] at h1
    | cons y ys =>
      cases c with
      | nil => simp [strLt] at h2
      | cons z zs =>
        simp only [strLt] at h1 h2 ⊢
        split_ifs at h1 h2 ⊢ <;> first | rfl | omega | (exact ih _ _ h1 h2)

theorem strLt_tri (a b : CString) (h1 : strLt a b = false) (h2 : strLt b a = false) : a = b := by
  induction a generalizing b with
  | nil =>
    cases b with
    | nil => rfl
    | cons y ys => simp [strLt] at h1
  | cons x xs ih =>
    cases b with
    | nil => simp [strLt] at h2
    | cons y ys =>
      simp only [strLt] at h1 h2
      by_cases hxy : x < y
      · simp [hxy] at h1
      · by_cases hyx : y < x
        · simp [hyx] at h2
        · simp only [hxy, hyx, if_false] at h1 h2
          have : x = y := by omega
          subst this
          rw [ih ys h1 h2]

theorem strLt_order : StrictOrder strLt := ⟨strLt_irrefl, strLt_trans, strLt_tri⟩

theorem natLt_order : StrictOrder natLt :=
  ⟨fun a => by simp [natLt], fun a b c h1 h2 => by simp [natLt] at *; omega,
   fun a b h1 h2 => by simp [natLt] at *; omega⟩

theorem StrictOrder.asymm {κ : Type} {lt : κ → κ → Bool} (o : StrictOrder lt) (a b : κ)
    (h : lt a b = true) : lt b a = false := by
  by_contra h'
  have h2 : lt b a = true := by simpa using h'
  have := o.trans a b a h h2
  rw [o.irrefl] at this
  exact Bool.false_ne_true this

theorem StrictOrder.equiv_iff {κ : Type} {lt : κ → κ → Bool} (o : StrictOrder lt) (a b : κ) :
    (!lt a b && !lt b a) = true ↔ a = b := by
  constructor
  · intro h
    simp only [Bool.and_eq_true, Bool.not_eq_true'] at h
    exact o.tri a b h.1 h.2
  · rintro rfl
    simp [o.irrefl]

/-! ## Ordered maps: lookup, update, order -/

theorem sorted_nil {κ : Type} (lt : κ → κ → Bool) : Sorted lt ([] : Map κ) := by
  simp [Sorted, keys]

theorem sorted_cons {κ : Type} {lt : κ → κ → Bool} {e : κ × Nat} {m : Map κ} :
    Sorted lt (e :: m) ↔ (∀ k ∈ keys m, lt e.1 k = true) ∧ Sorted lt m := by
  simp [Sorted, keys]

theorem mapFind_eq_none {κ : Type} {lt : κ → κ → Bool} (o : StrictOrder lt) (m : Map κ) (k : κ) :
    mapFind lt m k = none ↔ k ∉ keys m := by
  induction m with
  | nil => simp [mapFind, keys]
  | cons e m ih =>
    obtain ⟨k', v⟩ := e
    simp only [mapFind, keys, List.map_cons, List.mem_cons, not_or] at ih ⊢
    by_cases h : k = k'
    · subst h; simp [o.irrefl]
    · have : (!lt k k' && !lt k' k) = false := by
        rw [Bool.eq_false_iff]; intro hh; exact h ((o.equiv_iff _ _).1 hh)
      rw [this]; simp [h, ih, keys]

theorem mapFind_mapSet_same {κ : Type} {lt : κ → κ → Bool} (o : StrictOrder lt) (m : Map κ)
    (k : κ) (v : Nat) : mapFind lt (mapSet lt m k v) k = some v := by
  induction m with
  | nil => simp [mapFind, mapSet, o.irrefl]
  | cons e m ih =>
    obtain ⟨k', v'⟩ := e
    simp only [mapSet]
    by_cases h1 : lt k k' = true
    · simp [h1, mapFind, o.irrefl]
    · by_cases h2 : lt k' k = true
      · simp [h1, h2, mapFind, ih]
      · have : k = k' := o.tri _ _ (by simpa using h1) (by simpa using h2)
        subst this
        simp [mapFind, o.irrefl]

theorem mapFind_mapSet_other {κ : Type} {lt : κ → κ → Bool} (o : StrictOrder lt) (m : Map κ)
    (k k2 : κ) (v : Nat) (hne : k2 ≠ k) : mapFind lt (mapSet lt m k v) k2 = mapFind lt m k2 := by
  have hk : (!lt k2 k && !lt k k2) = false := by
    rw [Bool.eq_false_iff]; intro hh; exact hne ((o.equiv_iff _ _).1 hh)
  induction m with
  | nil => simp [mapFind, mapSet, hk]
  | cons e m ih =>
    obtain ⟨k', v'⟩ := e
    simp only [mapSet]
    by_cases h1 : lt k k' = true
    · simp [h1, mapFind, hk]
    · by_cases h2 : lt k' k = true
      · simp [h1, h2, mapFind, ih]
      · have : k = k' := o.tri _ _ (by simpa using h1) (by simpa using h2)
        subst this
        simp [mapFind, o.irrefl, hk]

theorem mem_keys_mapSet {κ : Type} {lt : κ → κ → Bool} (o : StrictOrder lt) (m : Map κ)
    (k k2 : κ) (v : Nat) : k2 ∈ keys (mapSet lt m k v) ↔ k2 = k ∨ k2 ∈ keys m := by
  induction m with
  | nil => simp [mapSet, keys]
  | cons e m ih =>
    obtain ⟨k', v'⟩ := e
    simp only [mapSet]
    cases h1 : lt k k'
    · cases h2 : lt k' k
      · have : k = k' := o.tri _ _ h1 h2
        subst this
        simp [keys]
      · simp only [keys, List.map_cons, List.mem_cons] at ih ⊢
        simp only [if_true, Bool.false_eq_true, if_false, List.map_cons, List.mem_cons, ih]
        tauto
    · simp [keys]

theorem sorted_mapSet {κ : Type} {lt : κ → κ → Bool} (o : StrictOrder lt) (m : Map κ)
    (k : κ) (v : Nat) (hs : Sorted lt m) : Sorted lt (mapSet lt m k v) := by
  induction m with
  | nil => simp [mapSet, Sorted, keys]
  | cons e m ih =>
    obtain ⟨k', v'⟩ := e
    rw [sorted_cons] at hs
    simp only [mapSet]
    cases h1 : lt k k'
    · cases h2 : lt k' k
      · simp only [Bool.false_eq_true, if_false]
        exact sorted_cons.2 hs
      · simp only [Bool.false_eq_true, if_true, if_false]
        rw [sorted_cons]
        refine ⟨?_, ih hs.2⟩
        intro k2 hk2
        rcases (mem_keys_mapSet o m k k2 v).1 hk2 with rfl | hk2
        · exact h2
        · exact hs.1 k2 hk2
    · simp only [if_true]
      rw [sorted_cons]
      refine ⟨?_, sorted_cons.2 hs⟩
      intro k2 hk2
      simp only [keys, List.map_cons, List.mem_cons] at hk2
      rcases hk2 with rfl | hk2
      · exact h1
      · exact o.trans _ _ _ h1 (hs.1 k2 hk2)

theorem mapSet_append {κ : Type} {lt : κ → κ → Bool} (o : StrictOrder lt) (m : Map κ)
    (k : κ) (v : Nat) (h : ∀ k2 ∈ keys m, lt k2 k = true) : mapSet lt m k v = m ++ [(k, v)] := by
  induction m with
  | nil => simp [mapSet]
  | cons e m ih =>
    obtain ⟨k', v'⟩ := e
    have hk : lt k' k = true := h k' (by simp [keys])
    have hk2 : lt k k' = false := o.asymm _ _ hk
    simp only [mapSet, hk, hk2, if_true, List.cons_append]
    simp only [Bool.false_eq_true, if_false]
    rw [ih (fun k2 h2 => h k2 (by simp only [keys, List.map_cons, List.mem_cons] at h2 ⊢; exact Or.inr h2))]

theorem sorted_ext {κ : Type} {lt : κ → κ → Bool} (o : StrictOrder lt) (m1 m2 : Map κ)
    (h1 : Sorted lt m1) (h2 : Sorted lt m2) (h : ∀ k, mapFind lt m1 k = mapFind lt m2 k) :
    m1 = m2 := by
  induction m1 generalizing m2 with
  | nil =>
    cases m2 with
    | nil => rfl
    | cons e m2 =>
      have := h e.1
      simp [mapFind, o.irrefl] at this
  | cons e1 m1 ih =>
    cases m2 with
    | nil =>
      have := h e1.1
      simp [mapFind, o.irrefl] at this
    | cons e2 m2 =>
      obtain ⟨k1, v1⟩ := e1
      obtain ⟨k2, v2⟩ := e2
      rw [sorted_cons] at h1 h2
      have hk : k1 = k2 := by
        by_contra hne
        have hk : (!lt k1 k2 && !lt k2 k1) = false := by
          rw [Bool.eq_false_iff]; intro hh; exact hne ((o.equiv_iff _ _).1 hh)
        have hk' : (!lt k2 k1 && !lt k1 k2) = false := by
          rw [Bool.and_comm]; exact hk
        have e1 := h k1
        have e2 := h k2
        simp only [mapFind, o.irrefl, hk, hk', Bool.not_false, Bool.and_self, if_true,
          Bool.false_eq_true, if_false] at e1 e2
        have m1in : k1 ∈ keys m2 := by
          by_contra hc
          rw [← mapFind_eq_none o] at hc
          rw [hc] at e1; cases e1
        have m2in : k2 ∈ keys m1 := by
          by_contra hc
          rw [← mapFind_eq_none o] at hc
          rw [hc] at e2; cases e2
        have a := h1.1 k2 m2in
        have b := h2.1 k1 m1in
        rw [o.asymm _ _ a] at b
        cases b
      subst hk
      have hv : v1 = v2 := by
        have := h k1
        simpa [mapFind, o.irrefl] using this
      subst hv
      congr 1
      apply ih m2 h1.2 h2.2
      intro k
      by_cases hk : k = k1
      · subst hk
        have a : k ∉ keys m1 := fun hc => by
          have := h1.1 k hc; rw [o.irrefl] at this; cases this
        have b : k ∉ keys m2 := fun hc => by
          have := h2.1 k hc; rw [o.irrefl] at this; cases this
        rw [(mapFind_eq_none o m1 k).2 a, (mapFind_eq_none o m2 k).2 b]
      · have hk' : (!lt k k1 && !lt k1 k) = false := by
          rw [Bool.eq_false_iff]; intro hh; exact hk ((o.equiv_iff _ _).1 hh)
        have := h k
        simpa [mapFind, hk'] using this

theorem mapFind_mem {κ : Type} {lt : κ → κ → Bool} (o : StrictOrder lt) (m : Map κ) (k : κ)
    (v : Nat) (h : mapFind lt m k = some v) : (k, v) ∈ m := by
  induction m with
  | nil => simp [mapFind] at h
  | cons e m ih =>
    obtain ⟨k', v'⟩ := e
    simp only [mapFind] at h
    by_cases hk : (!lt k k' && !lt k' k) = true
    · have := (o.equiv_iff _ _).1 hk
      subst this
      simp only [hk, if_true, Option.some.injEq] at h
      subst h
      exact List.mem_cons_self _ _
    · simp only [hk, if_false] at h
      exact List.mem_cons_of_mem _ (ih h)

theorem sum_values_mapSet {κ : Type} {lt : κ → κ → Bool} (o : StrictOrder lt) (m : Map κ)
    (k : κ) (v : Nat) (hs : Sorted lt m) :
    (values (mapSet lt m k v)).sum + (mapFind lt m k).getD 0 = (values m).sum + v := by
  induction m with
  | nil => simp [mapSet, mapFind, values]
  | cons e m ih =>
    obtain ⟨k', v'⟩ := e
    rw [sorted_cons] at hs
    simp only [mapSet, mapFind]
    cases h1 : lt k k'
    · cases h2 : lt k' k
      · simp [values]; omega
      · have := ih hs.2
        simp only [values, List.map_cons, List.sum_cons] at this ⊢
        simp only [Bool.false_eq_true, if_true, if_false, Bool.not_false, Bool.not_true,
          Bool.and_false, List.map_cons, List.sum_cons]
        omega
    · have hnot : k ∉ keys m := fun hc => by
        have := o.trans _ _ _ h1 (hs.1 k hc); rw [o.irrefl] at this; cases this
      have hnone := (mapFind_eq_none o m k).2 hnot
      simp [values, hnone]; omega

/-! ## The counting loop -/

theorem toSize_natCast (k : Nat) (hk : k < ULL) : toSize (k : Int) = k := by
  unfold toSize
  have : ((k : Int) % (ULL : Int)) = (k : Int) := by
    apply Int.emod_eq_of_lt (by omega)
    exact_mod_cast hk
  rw [this]; simp

theorem count_loop_eq_fold (x : CString) (k : Nat) (hk : k < ULL) (drop_n : Bool) (passes i : Nat)
    (d : Dict) (h : i + passes ≤ x.length + 1) :
    count_loop x (k : Int) drop_n passes i d =
      .ok (((List.range' i passes).map (window x k)).foldl (count_step drop_n) d) := by
  induction passes generalizing i d with
  | zero => simp [count_loop]
  | succ p ih =>
    have hi : ¬ x.length < i := by omega
    simp only [count_loop, substr, hi, if_false, toSize_natCast k hk]
    rw [ih (i + 1) _ (by omega)]
    simp [List.range'_succ, window]

theorem windowCount_natCast (x : CString) (k : Nat) (hk1 : 1 ≤ k) (hk : k ≤ x.length)
    (hx : x.length < ULL) :
    windowCount x (k : Int) = x.length + 1 - k := by
  unfold windowCount
  have h1 : (((x.length + 1 : Nat) : Int) - (k : Int)) = ((x.length + 1 - k : Nat) : Int) := by
    omega
  rw [h1]
  have : (((x.length + 1 - k : Nat) : Int) % (ULL : Int)) = ((x.length + 1 - k : Nat) : Int) := by
    apply Int.emod_eq_of_lt (by omega)
    have : x.length + 1 - k < ULL := by omega
    exact_mod_cast this
  rw [this]; simp

/-- With a valid window length the counting loop runs over every window and returns. -/
theorem make_kmer_paired_list_eq_fold (x : CString) (k : Nat) (hk1 : 1 ≤ k) (hk : k ≤ x.length)
    (hx : x.length < ULL) (drop_n : Bool) (d : Dict) :
    make_kmer_paired_list x (k : Int) drop_n d =
      .ok ((windows x k).foldl (count_step drop_n) d) := by
  unfold make_kmer_paired_list
  rw [windowCount_natCast x k hk1 hk hx, count_loop_eq_fold x k (by omega) drop_n _ 0 d (by omega)]
  simp [windows, List.range_eq_range']

theorem fold_count_spec (drop_n : Bool) (d0 : Dict) (hs : Sorted strLt d0)
    (hz : ∀ e ∈ d0, e.2 = 0) (ws : List CString) (hlen : ws.length < ULL) :
    Sorted strLt (ws.foldl (count_step drop_n) d0) ∧
    (∀ s, mapFind strLt (ws.foldl (count_step drop_n) d0) s =
      if (counted drop_n ws).count s = 0 then mapFind strLt d0 s
      else some ((counted drop_n ws).count s)) ∧
    (values (ws.foldl (count_step drop_n) d0)).sum = (counted drop_n ws).length := by
  induction ws using List.reverseRecOn with
  | nil =>
    refine ⟨by simpa using hs, by simp [counted], ?_⟩
    simp only [List.foldl_nil, counted, List.filter_nil, List.length_nil]
    apply List.sum_eq_zero
    intro v hv
    simp only [values, List.mem_map] at hv
    obtain ⟨e, he, rfl⟩ := hv
    exact hz e he
  | append_singleton pre w ih =>
    have hpre : pre.length < ULL := by simp at hlen; omega
    obtain ⟨ihs, ihf, ihsum⟩ := ih hpre
    simp only [List.foldl_append, List.foldl_cons, List.foldl_nil]
    set d := pre.foldl (count_step drop_n) d0 with hd
    have hcnt : (counted drop_n pre).count w ≤ pre.length :=
      le_trans (List.count_le_length _ _) (by simp [counted]; exact List.length_filter_le _ _)
    cases hdrop : (drop_n && hasN w)
    case true =>
      have hc : counted drop_n (pre ++ [w]) = counted drop_n pre := by
        simp only [counted, List.filter_append, List.filter_cons, List.filter_nil, hdrop]
        simp
      simp only [count_step, hdrop, if_true, hc]
      exact ⟨ihs, ihf, ihsum⟩
    case false =>
      have hc : counted drop_n (pre ++ [w]) = counted drop_n pre ++ [w] := by
        simp only [counted, List.filter_append, List.filter_cons, List.filter_nil, hdrop]
        simp
      have hstep : count_step drop_n d w = mapSet strLt d w ((counted drop_n pre).count w + 1) ∧
          (mapFind strLt d w).getD 0 = (counted drop_n pre).count w := by
        simp only [count_step, hdrop, Bool.false_eq_true, if_false]
        have hfw := ihf w
        by_cases hc0 : (counted drop_n pre).count w = 0
        · rw [if_pos hc0] at hfw
          rw [hc0]
          cases hf0 : mapFind strLt d0 w with
          | none => rw [hf0] at hfw; simp [hfw]
          | some v =>
            have hv : v = 0 := hz _ (mapFind_mem strLt_order d0 w v hf0)
            subst hv
            rw [hf0] at hfw; simp [hfw]
        · rw [if_neg hc0] at hfw
          have hb : ((counted drop_n pre).count w + 1) % ULL = (counted drop_n pre).count w + 1 :=
            Nat.mod_eq_of_lt (by simp at hlen; omega)
          simp [hfw, hc0, hb]
      rw [hstep.1, hc]
      refine ⟨sorted_mapSet strLt_order _ _ _ ihs, ?_, ?_⟩
      · intro s
        by_cases hsw : s = w
        · subst hsw
          rw [mapFind_mapSet_same strLt_order]
          simp [List.count_append]
        · rw [mapFind_mapSet_other strLt_order _ _ _ _ hsw, ihf s]
          have : List.count s [w] = 0 := by
            simp [List.count_cons, List.count_nil]; exact fun h => hsw h.symm
          simp [List.count_append, this]
      · have := sum_values_mapSet strLt_order d w ((counted drop_n pre).count w + 1) ihs
        rw [hstep.2, ihsum] at this
        simp only [List.length_append, List.length_singleton]
        omega
/-! ## The odometer -/

theorem getD_lt_of_lt (b : CString) (hb : b.Pairwise (fun a c => a < c)) (i j : Nat) (hij : i < j)
    (hj : j < b.length) : b.getD i 0 < b.getD j 0 := by
  rw [List.getD_eq_getElem b 0 (by omega), List.getD_eq_getElem b 0 hj]
  exact (List.pairwise_iff_getElem.1 hb) i j (by omega) hj hij

theorem nodup_of_strict (b : CString) (hb : b.Pairwise (fun a c => a < c)) : b.Nodup :=
  hb.imp (fun h => Nat.ne_of_lt h)

theorem find_getD (b : CString) (hb : b.Pairwise (fun a c => a < c)) (j : Nat)
    (hj : j < b.length) : find b (b.getD j 0) = j := by
  rw [List.getD_eq_getElem b 0 hj]
  unfold find
  rw [if_pos (List.getElem_mem _), List.indexOf_getElem (nodup_of_strict b hb) j hj]

theorem index_of_lt (b : CString) (j : Nat) (hj : j < b.length) (hlen : b.length < ULL) :
    index b (j % ULL) = .ok (b.getD j 0) := by
  have : j % ULL = j := Nat.mod_eq_of_lt (by omega)
  rw [this]
  unfold index
  rw [dif_pos hj, List.getD_eq_getElem b 0 hj]

theorem carry_digitsLE (b : CString) (hb : b.Pairwise (fun a c => a < c)) (hlen : b.length < ULL)
    (k i : Nat) (hi : i + 1 < b.length ^ k) :
    carry b (b.getD (b.length - 1) 0) (b.getD 0 0) (digitsLE b k i) = .ok (digitsLE b k (i + 1)) := by
  induction k generalizing i with
  | zero => simp at hi
  | succ k ih =>
    have hn : 0 < b.length := by
      rcases Nat.eq_zero_or_pos b.length with h | h
      · rw [h] at hi; simp at hi
      · exact h
    have hr : i % b.length < b.length := Nat.mod_lt _ hn
    have hdm : b.length * (i / b.length) + i % b.length = i := Nat.div_add_mod i b.length
    simp only [digitsLE, carry]
    by_cases hlast : i % b.length + 1 < b.length
    · have hc : b.getD (i % b.length) 0 < b.getD (b.length - 1) 0 :=
        getD_lt_of_lt b hb _ _ (by omega) (by omega)
      rw [if_pos hc, find_getD b hb _ hr, index_of_lt b _ hlast hlen]
      have e1 : (i + 1) % b.length = i % b.length + 1 := by
        conv_lhs => rw [← hdm, Nat.add_assoc, Nat.mul_add_mod]
        exact Nat.mod_eq_of_lt hlast
      have e2 : (i + 1) / b.length = i / b.length := by
        conv_lhs => rw [← hdm, Nat.add_assoc, Nat.mul_add_div hn]
        rw [Nat.div_eq_of_lt hlast]; rfl
      rw [e1, e2]
    · have hmax : i % b.length = b.length - 1 := by omega
      have hc : ¬ b.getD (i % b.length) 0 < b.getD (b.length - 1) 0 := by
        rw [hmax]; exact Nat.lt_irrefl _
      have e0 : i + 1 = b.length * (i / b.length + 1) := by
        rw [Nat.mul_add, Nat.mul_one]; omega
      have hq : i / b.length + 1 < b.length ^ k := by
        rw [e0, pow_succ, Nat.mul_comm] at hi
        exact Nat.lt_of_mul_lt_mul_right hi
      rw [if_neg hc, ih _ hq]
      have e1 : (i + 1) % b.length = 0 := by rw [e0]; exact Nat.mul_mod_right _ _
      have e2 : (i + 1) / b.length = i / b.length + 1 := by
        rw [e0]; exact Nat.mul_div_cancel_left _ hn
      rw [e1, e2]

theorem successor_kth (b : CString) (hb : b.Pairwise (fun a c => a < c)) (hlen : b.length < ULL)
    (k i : Nat) (hi : i + 1 < b.length ^ k) :
    successor b (b.getD (b.length - 1) 0) (b.getD 0 0) (kth b k i) = .ok (kth b k (i + 1)) := by
  simp only [successor, kth, List.reverse_reverse, carry_digitsLE b hb hlen k i hi]

theorem length_digitsLE (b : CString) (k i : Nat) : (digitsLE b k i).length = k := by
  induction k generalizing i with
  | zero => rfl
  | succ k ih => simp [digitsLE, ih]

theorem length_kth (b : CString) (k i : Nat) : (kth b k i).length = k := by
  simp [kth, length_digitsLE]

theorem kth_succ (b : CString) (k i : Nat) :
    kth b (k + 1) i = kth b k (i / b.length) ++ [b.getD (i % b.length) 0] := by
  simp [kth, digitsLE]

theorem strLt_snoc (s t : CString) (c d : Nat) (h : s.length = t.length) :
    strLt (s ++ [c]) (t ++ [d]) = true ↔ strLt s t = true ∨ (s = t ∧ c < d) := by
  induction s generalizing t with
  | nil =>
    cases t with
    | nil => simp [strLt]
    | cons y ys => simp at h
  | cons x xs ih =>
    cases t with
    | nil => simp at h
    | cons y ys =>
      simp only [List.length_cons, Nat.add_right_cancel_iff] at h
      simp only [List.cons_append, strLt, List.cons.injEq]
      by_cases hxy : x < y
      · simp [hxy]
      · by_cases hyx : y < x
        · simp [hxy, hyx]; omega
        · have : x = y := by omega
          subst this
          simp [ih ys h]

theorem kth_lt (b : CString) (hb : b.Pairwise (fun a c => a < c)) (k i j : Nat) (hij : i < j)
    (hj : j < b.length ^ k) : strLt (kth b k i) (kth b k j) = true := by
  induction k generalizing i j with
  | zero => simp at hj; omega
  | succ k ih =>
    have hn : 0 < b.length := by
      rcases Nat.eq_zero_or_pos b.length with h | h
      · rw [h] at hj; simp at hj
      · exact h
    rw [kth_succ, kth_succ, strLt_snoc _ _ _ _ (by simp [length_kth])]
    have hle : i / b.length ≤ j / b.length := Nat.div_le_div_right (Nat.le_of_lt hij)
    have hjq : j / b.length < b.length ^ k := by
      rw [Nat.div_lt_iff_lt_mul hn, ← pow_succ]; exact hj
    rcases Nat.lt_or_eq_of_le hle with hlt | heq
    · exact Or.inl (ih _ _ hlt hjq)
    · right
      refine ⟨by rw [heq], ?_⟩
      apply getD_lt_of_lt b hb _ _ _ (Nat.mod_lt _ hn)
      have h1 := Nat.div_add_mod i b.length
      have h2 := Nat.div_add_mod j b.length
      rw [heq] at h1
      omega
theorem getLast?_snoc {α : Type} (l : List α) (a : α) : (l ++ [a]).getLast? = some a := by
  simp

theorem digitsLE_zero (b : CString) (k : Nat) :
    digitsLE b k 0 = List.replicate k (b.getD 0 0) := by
  induction k with
  | zero => rfl
  | succ k ih => simp [digitsLE, ih, List.replicate_succ]

theorem digitsLE_last (b : CString) (hn : 0 < b.length) (k : Nat) :
    digitsLE b k (b.length ^ k - 1) = List.replicate k (b.getD (b.length - 1) 0) := by
  induction k with
  | zero => rfl
  | succ k ih =>
    have hpos : 0 < b.length ^ k := pow_pos hn k
    have e0 : b.length ^ (k + 1) - 1 = b.length * (b.length ^ k - 1) + (b.length - 1) := by
      rw [pow_succ, Nat.mul_comm, Nat.mul_sub, Nat.mul_one]
      have : b.length ≤ b.length * b.length ^ k := Nat.le_mul_of_pos_right _ hpos
      omega
    have e1 : (b.length ^ (k + 1) - 1) % b.length = b.length - 1 := by
      rw [e0, Nat.mul_add_mod]; exact Nat.mod_eq_of_lt (by omega)
    have e2 : (b.length ^ (k + 1) - 1) / b.length = b.length ^ k - 1 := by
      rw [e0, Nat.mul_add_div hn, Nat.div_eq_of_lt (by omega)]; rfl
    simp only [digitsLE, e1, e2, ih, List.replicate_succ]

theorem kth_zero (b : CString) (k : Nat) : kth b k 0 = List.replicate k (b.getD 0 0) := by
  simp [kth, digitsLE_zero]

theorem kth_last (b : CString) (hn : 0 < b.length) (k : Nat) :
    kth b k (b.length ^ k - 1) = List.replicate k (b.getD (b.length - 1) 0) := by
  simp [kth, digitsLE_last b hn]

theorem kth_lt_last_iff (b : CString) (hb : b.Pairwise (fun a c => a < c)) (hn : 0 < b.length)
    (k i : Nat) (hi : i < b.length ^ k) :
    strLt (kth b k i) (List.replicate k (b.getD (b.length - 1) 0)) = true ↔
      i + 1 < b.length ^ k := by
  rw [← kth_last b hn k]
  constructor
  · intro h
    by_contra hc
    have : i = b.length ^ k - 1 := by omega
    rw [this, strLt_irrefl] at h
    cases h
  · intro h
    exact kth_lt b hb k _ _ (by omega) (by omega)

theorem permute_loop_kth (b : CString) (hb : b.Pairwise (fun a c => a < c)) (hn : 0 < b.length)
    (hlen : b.length < ULL) (k fuel i : Nat) (hi : i < b.length ^ k)
    (hfuel : b.length ^ k ≤ i + 1 + fuel) :
    permute_loop b (b.getD (b.length - 1) 0) (b.getD 0 0)
        (List.replicate k (b.getD (b.length - 1) 0)) fuel ((List.range (i + 1)).map (kth b k)) =
      .ok (kmerUniverse b k) := by
  induction fuel generalizing i with
  | zero =>
    have hi' : i + 1 = b.length ^ k := by omega
    have hnot : ¬ (i + 1 < b.length ^ k) := by omega
    unfold permute_loop
    simp only [List.range_succ, List.map_append, List.map_cons, List.map_nil, getLast?_snoc]
    rw [← kth_lt_last_iff b hb hn k i hi] at hnot
    simp only [hnot, if_false]
    simp [kmerUniverse, ← hi', List.range_succ]
  | succ f ih =>
    unfold permute_loop
    simp only [List.range_succ, List.map_append, List.map_cons, List.map_nil, getLast?_snoc]
    by_cases hlast : i + 1 < b.length ^ k
    · rw [if_pos ((kth_lt_last_iff b hb hn k i hi).2 hlast)]
      simp only [successor_kth b hb hlen k i hlast]
      have := ih (i + 1) hlast (by omega)
      simpa [List.range_succ] using this
    · have hi' : i + 1 = b.length ^ k := by omega
      rw [← kth_lt_last_iff b hb hn k i hi] at hlast
      simp only [hlast, if_false]
      simp [kmerUniverse, ← hi', List.range_succ]

/-- The map whose keys are the universe, each with value `0`. -/
theorem perm_dict_loop_kth (b : CString) (hb : b.Pairwise (fun a c => a < c)) (hn : 0 < b.length)
    (hlen : b.length < ULL) (k fuel i : Nat) (hi : i < b.length ^ k)
    (hfuel : b.length ^ k ≤ i + 1 + fuel) :
    perm_dict_loop b (b.getD (b.length - 1) 0) (b.getD 0 0)
        (List.replicate k (b.getD (b.length - 1) 0)) fuel
        ((List.range (i + 1)).map (fun j => (kth b k j, 0))) =
      .ok ((kmerUniverse b k).map (fun s => (s, 0))) := by
  induction fuel generalizing i with
  | zero =>
    have hi' : i + 1 = b.length ^ k := by omega
    have hnot : ¬ (i + 1 < b.length ^ k) := by omega
    unfold perm_dict_loop
    simp only [List.range_succ, List.map_append, List.map_cons, List.map_nil, getLast?_snoc]
    rw [← kth_lt_last_iff b hb hn k i hi] at hnot
    simp only [hnot, if_false]
    simp [kmerUniverse, ← hi', List.range_succ]
  | succ f ih =>
    unfold perm_dict_loop
    simp only [List.range_succ, List.map_append, List.map_cons, List.map_nil, getLast?_snoc]
    by_cases hlast : i + 1 < b.length ^ k
    · rw [if_pos ((kth_lt_last_iff b hb hn k i hi).2 hlast)]
      simp only [successor_kth b hb hlen k i hlast]
      have happ : mapSet strLt (List.map (fun j => (kth b k j, 0)) (List.range i) ++
          [(kth b k i, 0)]) (kth b k (i + 1)) 0 =
          (List.range (i + 1 + 1)).map (fun j => (kth b k j, 0)) := by
        rw [mapSet_append strLt_order]
        · simp [List.range_succ]
        · intro k2 hk2
          simp only [keys, List.map_append, List.map_map, List.map_cons, List.map_nil,
            List.mem_append, List.mem_map, List.mem_range, Function.comp, List.mem_singleton]
            at hk2
          rcases hk2 with ⟨j, hj, rfl⟩ | rfl
          · exact kth_lt b hb k _ _ (by omega) hlast
          · exact kth_lt b hb k _ _ (by omega) hlast
      rw [happ]
      exact ih (i + 1) hlast (by omega)
    · have hi' : i + 1 = b.length ^ k := by omega
      rw [← kth_lt_last_iff b hb hn k i hi] at hlast
      simp only [hlast, if_false]
      simp [kmerUniverse, ← hi', List.range_succ]
/-! ## The universe -/

theorem mem_digitsLE (b : CString) (hn : 0 < b.length) (k i c : Nat)
    (h : c ∈ digitsLE b k i) : c ∈ b := by
  induction k generalizing i with
  | zero => simp [digitsLE] at h
  | succ k ih =>
    simp only [digitsLE, List.mem_cons] at h
    rcases h with rfl | h
    · rw [List.getD_eq_getElem b 0 (Nat.mod_lt _ hn)]
      exact List.getElem_mem _
    · exact ih _ h

theorem digitsLE_surj (b : CString) (k : Nat) (l : CString) (hl : l.length = k)
    (hmem : ∀ c ∈ l, c ∈ b) : ∃ i, i < b.length ^ k ∧ digitsLE b k i = l := by
  induction l generalizing k with
  | nil =>
    subst hl
    exact ⟨0, by simp, rfl⟩
  | cons c l ih =>
    cases k with
    | zero => simp at hl
    | succ k =>
      simp only [List.length_cons, Nat.add_right_cancel_iff] at hl
      obtain ⟨i, hi, hd⟩ := ih k hl (fun c hc => hmem c (List.mem_cons_of_mem _ hc))
      obtain ⟨j, hj, hjc⟩ := List.getElem_of_mem (hmem c (List.mem_cons_self _ _))
      have hn : 0 < b.length := by omega
      refine ⟨j + b.length * i, ?_, ?_⟩
      · have h1 : b.length * (i + 1) ≤ b.length * b.length ^ k := Nat.mul_le_mul_left _ (by omega)
        have h2 : b.length ^ (k + 1) = b.length * b.length ^ k := by
          rw [pow_succ, Nat.mul_comm]
        rw [Nat.mul_add, Nat.mul_one] at h1
        rw [h2]
        omega
      · simp only [digitsLE]
        rw [Nat.add_mul_mod_self_left, Nat.mod_eq_of_lt hj, Nat.add_mul_div_left _ _ hn,
          Nat.div_eq_of_lt hj, Nat.zero_add, hd, List.getD_eq_getElem b 0 hj, hjc]

theorem mem_kmerUniverse (b : CString) (hn : 0 < b.length) (k : Nat) (s : CString) :
    s ∈ kmerUniverse b k ↔ s.length = k ∧ ∀ c ∈ s, c ∈ b := by
  simp only [kmerUniverse, List.mem_map, List.mem_range]
  constructor
  · rintro ⟨i, _, rfl⟩
    refine ⟨length_kth b k i, ?_⟩
    intro c hc
    simp only [kth, List.mem_reverse] at hc
    exact mem_digitsLE b hn k i c hc
  · rintro ⟨hl, hmem⟩
    obtain ⟨i, hi, hd⟩ := digitsLE_surj b k s.reverse (by simpa using hl)
      (fun c hc => hmem c (by simpa using hc))
    exact ⟨i, hi, by simp [kth, hd]⟩

theorem kmerUniverse_sorted (b : CString) (hb : b.Pairwise (fun a c => a < c)) (k : Nat) :
    (kmerUniverse b k).Pairwise (fun s t => strLt s t = true) := by
  unfold kmerUniverse
  rw [List.pairwise_map]
  have h := List.pairwise_lt_range (b.length ^ k)
  refine List.Pairwise.imp_of_mem ?_ h
  intro i j _ hj hij
  exact kth_lt b hb k i j hij (List.mem_range.1 hj)

theorem length_kmerUniverse (b : CString) (k : Nat) :
    (kmerUniverse b k).length = b.length ^ k := by
  simp [kmerUniverse]

/-! ## Sorting the alphabet -/

theorem sortChars_perm (b : CString) : (sortChars b).Perm b :=
  List.perm_insertionSort _ b

theorem mem_sortChars (b : CString) (c : Nat) : c ∈ sortChars b ↔ c ∈ b :=
  (sortChars_perm b).mem_iff

theorem length_sortChars (b : CString) : (sortChars b).length = b.length :=
  (sortChars_perm b).length_eq

theorem sortChars_strict (b : CString) (hd : b.Nodup) :
    (sortChars b).Pairwise (fun a c => a < c) := by
  have h1 : (sortChars b).Sorted (fun a c => a ≤ c) := List.sorted_insertionSort _ b
  have h2 : (sortChars b).Nodup := (sortChars_perm b).nodup_iff.2 hd
  exact h1.lt_of_le h2

theorem sortChars_of_strict (b : CString) (hb : b.Pairwise (fun a c => a < c)) :
    sortChars b = b := by
  have h : b.Sorted (fun a c => a ≤ c) := hb.imp (fun h => Nat.le_of_lt h)
  exact List.Sorted.insertionSort_eq h

theorem ascii_length (b : CString) (hd : b.Nodup) (ha : ∀ c ∈ b, c < 128) : b.length < ULL := by
  have hsub : b ⊆ List.range 128 := fun c hc => List.mem_range.2 (ha c hc)
  have := (List.subperm_of_subset hd hsub).length_le
  simp only [List.length_range] at this
  have : (128 : Nat) < ULL := by decide
  omega

theorem getLast?_eq_getD (b : CString) (hn : 0 < b.length) :
    b.getLast? = some (b.getD (b.length - 1) 0) := by
  have hne : b ≠ [] := by intro h; rw [h] at hn; simp at hn
  rw [List.getLast?_eq_getLast _ hne, List.getLast_eq_getElem,
    List.getD_eq_getElem b 0 (by omega)]

theorem head?_eq_getD (b : CString) (hn : 0 < b.length) : b.head? = some (b.getD 0 0) := by
  cases b with
  | nil => simp at hn
  | cons c cs => simp

theorem permute_kmers_strict (b : CString) (hb : b.Pairwise (fun a c => a < c))
    (hn : 0 < b.length) (hlen : b.length < ULL) (k fuel : Nat) (hfuel : b.length ^ k ≤ fuel + 1) :
    permute_kmers fuel (k : Int) b = .ok (kmerUniverse b k) := by
  unfold permute_kmers
  simp only [sortChars_of_strict b hb, getLast?_eq_getD b hn, head?_eq_getD b hn, Int.toNat_ofNat]
  have := permute_loop_kth b hb hn hlen k fuel 0 (pow_pos hn k) (by omega)
  rw [show List.range (0 + 1) = [0] from rfl, List.map_cons, List.map_nil, kth_zero] at this
  exact this

theorem generate_kmer_perm_dict_strict (b : CString) (hb : b.Pairwise (fun a c => a < c))
    (hn : 0 < b.length) (hlen : b.length < ULL) (k fuel : Nat) (hfuel : b.length ^ k ≤ fuel + 1) :
    generate_kmer_perm_dict fuel (k : Int) b = .ok ((kmerUniverse b k).map (fun s => (s, 0))) := by
  unfold generate_kmer_perm_dict
  simp only [sortChars_of_strict b hb, getLast?_eq_getD b hn, head?_eq_getD b hn, Int.toNat_ofNat]
  have := perm_dict_loop_kth b hb hn hlen k fuel 0 (pow_pos hn k) (by omega)
  rw [show List.range (0 + 1) = [0] from rfl, List.map_cons, List.map_nil, kth_zero] at this
  exact this

theorem sortChars_idem (b : CString) (hd : b.Nodup) : sortChars (sortChars b) = sortChars b :=
  sortChars_of_strict _ (sortChars_strict b hd)

/-- The closed form of `permute_kmers` on an alphabet of distinct symbols. -/
theorem permute_kmers_eq (b : CString) (hd : b.Nodup) (hn : 0 < b.length) (hlen : b.length < ULL)
    (k fuel : Nat) (hfuel : b.length ^ k ≤ fuel + 1) :
    permute_kmers fuel (k : Int) b = .ok (kmerUniverse (sortChars b) k) := by
  have h := permute_kmers_strict (sortChars b) (sortChars_strict b hd)
    (by rw [length_sortChars]; exact hn) (by rw [length_sortChars]; exact hlen) k fuel
    (by rw [length_sortChars]; exact hfuel)
  unfold permute_kmers at h ⊢
  rw [sortChars_idem b hd] at h
  exact h

/-- The closed form of `generate_kmer_perm_dict` on an alphabet of distinct symbols. -/
theorem generate_kmer_perm_dict_eq (b : CString) (hd : b.Nodup) (hn : 0 < b.length)
    (hlen : b.length < ULL) (k fuel : Nat) (hfuel : b.length ^ k ≤ fuel + 1) :
    generate_kmer_perm_dict fuel (k : Int) b =
      .ok ((kmerUniverse (sortChars b) k).map (fun s => (s, 0))) := by
  have h := generate_kmer_perm_dict_strict (sortChars b) (sortChars_strict b hd)
    (by rw [length_sortChars]; exact hn) (by rw [length_sortChars]; exact hlen) k fuel
    (by rw [length_sortChars]; exact hfuel)
  unfold generate_kmer_perm_dict at h ⊢
  rw [sortChars_idem b hd] at h
  exact h
/-! ## Counting: the sparse table -/

theorem count_map_eq_length_filter (l : List Nat) (f : Nat → CString) (s : CString) :
    (l.map f).count s = (l.filter (fun i => f i = s)).length := by
  induction l with
  | nil => rfl
  | cons a l ih =>
    by_cases h : f a = s
    · simp [List.count_cons, List.filter_cons, h, ih]
    · simp [List.count_cons, List.filter_cons, h, ih]

theorem mem_windows (x : CString) (k : Nat) (hk : k ≤ x.length) (s : CString) :
    s ∈ windows x k ↔ ∃ i, i ≤ x.length - k ∧ window x k i = s := by
  simp only [windows, List.mem_map, List.mem_range]
  constructor
  · rintro ⟨i, hi, rfl⟩; exact ⟨i, by omega, rfl⟩
  · rintro ⟨i, hi, rfl⟩; exact ⟨i, by omega, rfl⟩

theorem length_windows (x : CString) (k : Nat) : (windows x k).length = x.length + 1 - k := by
  simp [windows]

/-- C1: for `1 ≤ k ≤ |x|`, `make_kmer_paired_list(x, k, false, {})` returns a table whose keys
are exactly the windows `x[i..i+k)`, `0 ≤ i ≤ |x| - k`, and whose value at a key `s` is the number
of start indices `i` in that range with `x[i..i+k) = s`. -/
theorem make_kmer_paired_list_sparse (x : CString) (k : Nat) (hx : x.length < ULL) (hk1 : 1 ≤ k)
    (hk : k ≤ x.length) :
    ∃ d, make_kmer_paired_list x (k : Int) false [] = .ok d ∧ Sorted strLt d ∧
      (∀ s, s ∈ keys d ↔ ∃ i, i ≤ x.length - k ∧ window x k i = s) ∧
      (∀ s, s ∈ keys d → mapFind strLt d s =
        some ((List.range (x.length - k + 1)).filter (fun i => window x k i = s)).length) := by
  refine ⟨_, make_kmer_paired_list_eq_fold x k hk1 hk hx false [], ?_⟩
  have hlen : (windows x k).length < ULL := by rw [length_windows]; omega
  obtain ⟨hs, hf, _⟩ := fold_count_spec false [] (sorted_nil strLt) (by simp) (windows x k) hlen
  have hcounted : counted false (windows x k) = windows x k := by simp [counted]
  rw [hcounted] at hf
  have hcount : ∀ s, (windows x k).count s =
      ((List.range (x.length - k + 1)).filter (fun i => window x k i = s)).length := by
    intro s
    have : x.length - k + 1 = x.length + 1 - k := by omega
    rw [this]
    exact count_map_eq_length_filter _ _ s
  have hkeys : ∀ s, s ∈ keys ((windows x k).foldl (count_step false) []) ↔ s ∈ windows x k := by
    intro s
    rw [← not_iff_not, ← mapFind_eq_none strLt_order, hf s]
    simp [mapFind, List.count_eq_zero]
  refine ⟨hs, ?_, ?_⟩
  · intro s
    rw [hkeys s, mem_windows x k hk]
  · intro s hsk
    have hin := (hkeys s).1 hsk
    have hne : (windows x k).count s ≠ 0 := by
      rw [Ne, List.count_eq_zero]; exact fun h => h hin
    rw [hf s, if_neg hne, hcount s]

/-- C1 at `x = "AACGT"`, `k = 2`: the table is `{AA:1, AC:1, CG:1, GT:1}`. -/
theorem make_kmer_paired_list_sparse_witness :
    make_kmer_paired_list (str "AACGT") 2 false [] =
      .ok [(str "AA", 1), (str "AC", 1), (str "CG", 1), (str "GT", 1)] ∧
    ∃ d, make_kmer_paired_list (str "AACGT") ((2 : Nat) : Int) false [] = .ok d ∧
      Sorted strLt d ∧
      (∀ s, s ∈ keys d ↔ ∃ i, i ≤ (str "AACGT").length - 2 ∧ window (str "AACGT") 2 i = s) ∧
      (∀ s, s ∈ keys d → mapFind strLt d s =
        some ((List.range ((str "AACGT").length - 2 + 1)).filter
          (fun i => window (str "AACGT") 2 i = s)).length) :=
  ⟨rfl, make_kmer_paired_list_sparse (str "AACGT") 2 (by decide) (by decide) (by decide)⟩

/-! ## The universe returned by `permute_kmers` -/

/-- C2: for an alphabet `b` of one or more distinct ASCII symbols, `permute_kmers(k, b)` returns
the list of all strings of length `k` over `b` in strictly increasing lexicographic order:
every such string is in the list, nothing else is, each element is smaller than every later one
and no element occurs twice. -/
theorem permute_kmers_universe (b : CString) (hd : b.Nodup) (hne : b ≠ [])
    (ha : ∀ c ∈ b, c < 128) (k : Nat) (_hk : 1 ≤ k) (fuel : Nat)
    (hfuel : b.length ^ k ≤ fuel + 1) :
    ∃ out, permute_kmers fuel (k : Int) b = .ok out ∧
      (∀ s, s ∈ out ↔ s.length = k ∧ ∀ c ∈ s, c ∈ b) ∧
      out.Pairwise (fun s t => strLt s t = true) ∧
      out.Chain' (fun s t => strLt s t = true) ∧ out.Nodup := by
  have hn : 0 < b.length := List.length_pos.2 hne
  refine ⟨_, permute_kmers_eq b hd hn (ascii_length b hd ha) k fuel hfuel, ?_, ?_, ?_, ?_⟩
  · intro s
    rw [mem_kmerUniverse _ (by rw [length_sortChars]; exact hn)]
    simp only [mem_sortChars]
  · exact kmerUniverse_sorted _ (sortChars_strict b hd) k
  · exact (kmerUniverse_sorted _ (sortChars_strict b hd) k).chain'
  · refine (kmerUniverse_sorted _ (sortChars_strict b hd) k).imp ?_
    intro s t hst heq
    rw [heq, strLt_irrefl] at hst
    cases hst

/-- C2 at `b = "AC"`, `k = 2`: the list is `[AA, AC, CA, CC]`. -/
theorem permute_kmers_universe_witness :
    permute_kmers 3 2 (str "AC") = .ok [str "AA", str "AC", str "CA", str "CC"] ∧
    ∃ out, permute_kmers 3 ((2 : Nat) : Int) (str "AC") = .ok out ∧
      (∀ s, s ∈ out ↔ s.length = 2 ∧ ∀ c ∈ s, c ∈ str "AC") ∧
      out.Pairwise (fun s t => strLt s t = true) ∧
      out.Chain' (fun s t => strLt s t = true) ∧ out.Nodup :=
  ⟨rfl, permute_kmers_universe (str "AC") (by decide) (by decide) (by decide) 2 (by decide) 3
    (by decide)⟩

/-- C3: for an alphabet `b` of one or more distinct ASCII symbols and `k ≥ 1`, the list returned
by `permute_kmers(k, b)` has `|b| ^ k` elements. -/
theorem permute_kmers_length (b : CString) (hd : b.Nodup) (hne : b ≠ [])
    (ha : ∀ c ∈ b, c < 128) (k : Nat) (_hk : 1 ≤ k) (fuel : Nat)
    (hfuel : b.length ^ k ≤ fuel + 1) :
    ∃ out, permute_kmers fuel (k : Int) b = .ok out ∧ out.length = b.length ^ k := by
  have hn : 0 < b.length := List.length_pos.2 hne
  refine ⟨_, permute_kmers_eq b hd hn (ascii_length b hd ha) k fuel hfuel, ?_⟩
  rw [length_kmerUniverse, length_sortChars]

/-- C3 at `b = "ACTG"`, `k = 2`: sixteen elements. -/
theorem permute_kmers_length_witness :
    ∃ out, permute_kmers 15 ((2 : Nat) : Int) ACTG = .ok out ∧ out.length = ACTG.length ^ 2 :=
  permute_kmers_length ACTG (by decide) (by decide) (by decide) 2 (by decide) 15 (by decide)
/-! ## Counting: dropping windows with `N` -/

theorem sorted_filter {κ : Type} {lt : κ → κ → Bool} (m : Map κ) (p : κ × Nat → Bool)
    (hs : Sorted lt m) : Sorted lt (m.filter p) := by
  unfold Sorted keys at hs ⊢
  exact hs.sublist ((List.filter_sublist m).map Prod.fst)

theorem mapFind_filter {κ : Type} {lt : κ → κ → Bool} (o : StrictOrder lt) (m : Map κ)
    (p : κ → Bool) (k : κ) :
    mapFind lt (m.filter (fun e => p e.1)) k = if p k then mapFind lt m k else none := by
  induction m with
  | nil => simp [mapFind]
  | cons e m ih =>
    obtain ⟨k', v⟩ := e
    by_cases hk : k = k'
    · subst hk
      cases hp : p k
      · simp only [List.filter_cons, hp, Bool.false_eq_true, if_false]
        rw [ih, hp]; simp
      · simp [List.filter_cons, hp, mapFind, o.irrefl]
    · have hk' : (!lt k k' && !lt k' k) = false := by
        rw [Bool.eq_false_iff]; intro hh; exact hk ((o.equiv_iff _ _).1 hh)
      cases hp : p k'
      · simp only [List.filter_cons, hp, Bool.false_eq_true, if_false, mapFind, hk']
        rw [ih]
      · simp only [List.filter_cons, hp, if_true, mapFind, hk', Bool.false_eq_true, if_false]
        rw [ih]

theorem count_counted_true (ws : List CString) (s : CString) :
    (counted true ws).count s = if hasN s then 0 else ws.count s := by
  simp only [counted, Bool.true_and]
  cases h : hasN s
  · simp only [Bool.false_eq_true, if_false]
    exact List.count_filter (by simp [h])
  · simp only [if_true]
    rw [List.count_eq_zero]
    intro hmem
    have := (List.mem_filter.1 hmem).2
    simp [h] at this

/-- C8: for `1 ≤ k ≤ |x|`, the table of `make_kmer_paired_list(x, k, true)` is the table of
`make_kmer_paired_list(x, k, false)` with the entries whose key contains `N` removed and all other
entries unchanged. -/
theorem make_kmer_paired_list_drop_n (x : CString) (k : Nat) (hx : x.length < ULL) (hk1 : 1 ≤ k)
    (hk : k ≤ x.length) :
    ∃ d_all d_drop, make_kmer_paired_list x (k : Int) false [] = .ok d_all ∧
      make_kmer_paired_list x (k : Int) true [] = .ok d_drop ∧
      d_drop = d_all.filter (fun e => !hasN e.1) := by
  refine ⟨_, _, make_kmer_paired_list_eq_fold x k hk1 hk hx false [],
    make_kmer_paired_list_eq_fold x k hk1 hk hx true [], ?_⟩
  have hlen : (windows x k).length < ULL := by rw [length_windows]; omega
  obtain ⟨hs0, hf0, _⟩ := fold_count_spec false [] (sorted_nil strLt) (by simp) (windows x k) hlen
  obtain ⟨hs1, hf1, _⟩ := fold_count_spec true [] (sorted_nil strLt) (by simp) (windows x k) hlen
  have hcounted : counted false (windows x k) = windows x k := by simp [counted]
  rw [hcounted] at hf0
  apply sorted_ext strLt_order _ _ hs1 (sorted_filter _ _ hs0)
  intro s
  rw [mapFind_filter strLt_order _ (fun key => !hasN key) s, hf1 s, hf0 s, count_counted_true]
  cases h : hasN s <;> simp [mapFind]

/-- C8 at `x = "ANCGT"`, `k = 2`: the table is `{CG:1, GT:1}`. -/
theorem make_kmer_paired_list_drop_n_witness :
    make_kmer_paired_list (str "ANCGT") 2 true [] = .ok [(str "CG", 1), (str "GT", 1)] ∧
    ∃ d_all d_drop, make_kmer_paired_list (str "ANCGT") ((2 : Nat) : Int) false [] = .ok d_all ∧
      make_kmer_paired_list (str "ANCGT") ((2 : Nat) : Int) true [] = .ok d_drop ∧
      d_drop = d_all.filter (fun e => !hasN e.1) :=
  ⟨rfl, make_kmer_paired_list_drop_n (str "ANCGT") 2 (by decide) (by decide) (by decide)⟩

/-! ## Counting into the zero-filled universe -/

theorem sorted_seed (b : CString) (hb : b.Pairwise (fun a c => a < c)) (k : Nat) :
    Sorted strLt ((kmerUniverse b k).map (fun s => (s, 0))) := by
  unfold Sorted keys
  rw [List.map_map]
  have : (Prod.fst ∘ fun s : CString => (s, 0)) = id := by funext s; rfl
  rw [this, List.map_id]
  exact kmerUniverse_sorted b hb k

theorem mapFind_seed (b : CString) (k : Nat) (s : CString) :
    mapFind strLt ((kmerUniverse b k).map (fun s => (s, 0))) s =
      if s ∈ kmerUniverse b k then some 0 else none := by
  generalize kmerUniverse b k = U
  induction U with
  | nil => simp [mapFind]
  | cons u U ih =>
    by_cases hs : s = u
    · subst hs; simp [mapFind, strLt_irrefl]
    · have hk' : (!strLt s u && !strLt u s) = false := by
        rw [Bool.eq_false_iff]; intro hh; exact hs ((strLt_order.equiv_iff _ _).1 hh)
      simp only [List.map_cons, mapFind, hk', Bool.false_eq_true, if_false, ih, List.mem_cons, hs,
        false_or]

/-- Counting into the zero-filled universe over `b`: the run returns, and the table has the
universe keys together with the counted windows, each with its number of counted windows. -/
theorem anchored_spec (b : CString) (hd : b.Nodup) (hn : 0 < b.length) (hlen : b.length < ULL)
    (x : CString) (k : Nat) (hx : x.length < ULL) (hk1 : 1 ≤ k) (hk : k ≤ x.length)
    (drop_n : Bool) (fuel : Nat) (hfuel : b.length ^ k ≤ fuel + 1) :
    ∃ seed d, generate_kmer_perm_dict fuel (k : Int) b = .ok seed ∧
      make_kmer_paired_list x (k : Int) drop_n seed = .ok d ∧
      keys seed = kmerUniverse (sortChars b) k ∧
      Sorted strLt d ∧
      (∀ s, mapFind strLt d s =
        if (counted drop_n (windows x k)).count s = 0 then
          (if s ∈ kmerUniverse (sortChars b) k then some 0 else none)
        else some ((counted drop_n (windows x k)).count s)) ∧
      (values d).sum = (counted drop_n (windows x k)).length := by
  refine ⟨_, _, generate_kmer_perm_dict_eq b hd hn hlen k fuel hfuel,
    make_kmer_paired_list_eq_fold x k hk1 hk hx drop_n _, ?_, ?_⟩
  · simp [keys, List.map_map, Function.comp_def]
  have hlen : (windows x k).length < ULL := by rw [length_windows]; omega
  obtain ⟨hs, hf, hsum⟩ := fold_count_spec drop_n _
    (sorted_seed (sortChars b) (sortChars_strict b hd) k) (by simp) (windows x k) hlen
  refine ⟨hs, ?_, hsum⟩
  intro s
  rw [hf s, mapFind_seed]
theorem length_window (x : CString) (k i : Nat) (h : i + k ≤ x.length) :
    (window x k i).length = k := by
  simp [window]; omega

theorem mem_of_mem_window (x : CString) (k i c : Nat) (h : c ∈ window x k i) : c ∈ x :=
  List.mem_of_mem_drop (List.mem_of_mem_take h)

theorem count_counted (drop_n : Bool) (ws : List CString) (s : CString) :
    (counted drop_n ws).count s = if (drop_n && hasN s) = true then 0 else ws.count s := by
  cases drop_n
  · simp [counted]
  · rw [count_counted_true]; simp

/-- C5: for `1 ≤ k ≤ |x|`, with `drop_n = false` and the seed `generate_kmer_perm_dict(k, "ACTG")`,
the values of the table returned by `make_kmer_paired_list` add up to `|x| - k + 1`. -/
theorem anchored_sum (x : CString) (k : Nat) (hx : x.length < ULL) (hk1 : 1 ≤ k)
    (hk : k ≤ x.length) (fuel : Nat) (hfuel : 4 ^ k ≤ fuel + 1) :
    ∃ seed d, generate_kmer_perm_dict fuel (k : Int) ACTG = .ok seed ∧
      make_kmer_paired_list x (k : Int) false seed = .ok d ∧
      (values d).sum = x.length - k + 1 := by
  obtain ⟨seed, d, h1, h2, _, _, _, hsum⟩ := anchored_spec ACTG (by decide) (by decide)
    (by decide) x k hx hk1 hk false fuel hfuel
  refine ⟨seed, d, h1, h2, ?_⟩
  rw [hsum]
  simp only [counted, Bool.false_and, Bool.not_false, List.filter_true, length_windows]
  omega

/-- C5 at `x = "AACGT"`, `k = 2`: the sixteen values add up to `4`. -/
theorem anchored_sum_witness :
    ∃ seed d, generate_kmer_perm_dict 15 ((2 : Nat) : Int) ACTG = .ok seed ∧
      make_kmer_paired_list (str "AACGT") ((2 : Nat) : Int) false seed = .ok d ∧
      (values d).sum = (str "AACGT").length - 2 + 1 :=
  anchored_sum (str "AACGT") 2 (by decide) (by decide) (by decide) 15 (by decide)

/-- C6, as the code has it: for `1 ≤ k ≤ |x|` and either `clean_up`, the keys of the table
counted into `generate_kmer_perm_dict(k, "ACTG")` are the strings of length `k` over
`{A,C,G,T}` together with the counted windows of `x`; when `x` is over `{A,C,G,T}` they are
exactly the strings of length `k` over `{A,C,G,T}`. -/
theorem anchored_keys (x : CString) (k : Nat) (hx : x.length < ULL) (hk1 : 1 ≤ k)
    (hk : k ≤ x.length) (clean_up : Bool) (fuel : Nat) (hfuel : 4 ^ k ≤ fuel + 1) :
    ∃ seed d, generate_kmer_perm_dict fuel (k : Int) ACTG = .ok seed ∧
      make_kmer_paired_list x (k : Int) clean_up seed = .ok d ∧
      Sorted strLt d ∧
      (∀ s, s ∈ keys d ↔
        (s.length = k ∧ ∀ c ∈ s, c ∈ ACTG) ∨ s ∈ counted clean_up (windows x k)) ∧
      ((∀ c ∈ x, c ∈ ACTG) → ∀ s, s ∈ keys d ↔ (s.length = k ∧ ∀ c ∈ s, c ∈ ACTG)) := by
  obtain ⟨seed, d, h1, h2, _, hs, hf, _⟩ := anchored_spec ACTG (by decide) (by decide)
    (by decide) x k hx hk1 hk clean_up fuel hfuel
  have hU : ∀ s, s ∈ kmerUniverse (sortChars ACTG) k ↔ (s.length = k ∧ ∀ c ∈ s, c ∈ ACTG) := by
    intro s
    rw [mem_kmerUniverse _ (by decide)]
    simp only [mem_sortChars]
  have hkeys : ∀ s, s ∈ keys d ↔
      (s.length = k ∧ ∀ c ∈ s, c ∈ ACTG) ∨ s ∈ counted clean_up (windows x k) := by
    intro s
    rw [← hU s, ← not_iff_not, ← mapFind_eq_none strLt_order, hf s]
    by_cases hc : (counted clean_up (windows x k)).count s = 0
    · rw [if_pos hc]
      have hnot : s ∉ counted clean_up (windows x k) := List.count_eq_zero.1 hc
      by_cases hu : s ∈ kmerUniverse (sortChars ACTG) k <;> simp [hu, hnot]
    · rw [if_neg hc]
      have hin : s ∈ counted clean_up (windows x k) := by
        by_contra hnot; exact hc (List.count_eq_zero.2 hnot)
      simp [hin]
  refine ⟨seed, d, h1, h2, hs, hkeys, ?_⟩
  intro hxs s
  rw [hkeys s]
  constructor
  · rintro (h | h)
    · exact h
    · have hw : s ∈ windows x k := (List.mem_filter.1 h).1
      obtain ⟨i, hi, rfl⟩ := (mem_windows x k hk s).1 hw
      exact ⟨length_window x k i (by omega), fun c hc => hxs c (mem_of_mem_window x k i c hc)⟩
  · exact Or.inl

/-- C6 at `x = "AACGT"`, `k = 1`, `clean_up = true`. -/
theorem anchored_keys_witness :
    ∃ seed d, generate_kmer_perm_dict 3 ((1 : Nat) : Int) ACTG = .ok seed ∧
      make_kmer_paired_list (str "AACGT") ((1 : Nat) : Int) true seed = .ok d ∧
      Sorted strLt d ∧
      (∀ s, s ∈ keys d ↔
        (s.length = 1 ∧ ∀ c ∈ s, c ∈ ACTG) ∨ s ∈ counted true (windows (str "AACGT") 1)) ∧
      ((∀ c ∈ str "AACGT", c ∈ ACTG) → ∀ s, s ∈ keys d ↔ (s.length = 1 ∧ ∀ c ∈ s, c ∈ ACTG)) :=
  anchored_keys (str "AACGT") 1 (by decide) (by decide) (by decide) true 3 (by decide)

/-- C6 fails at `x = "AN"`, `k = 1`, `clean_up = false`: the key `N`, which is not over
`{A,C,G,T}`, is in the table; and at `x = "AX"`, `k = 1`, `clean_up = true`: the key `X` is. -/
theorem anchored_keys_counterexample :
    generate_kmer_perm_dict 3 1 ACTG =
      .ok [(str "A", 0), (str "C", 0), (str "G", 0), (str "T", 0)] ∧
    make_kmer_paired_list (str "AN") 1 false
        [(str "A", 0), (str "C", 0), (str "G", 0), (str "T", 0)] =
      .ok [(str "A", 1), (str "C", 0), (str "G", 0), (str "N", 1), (str "T", 0)] ∧
    make_kmer_paired_list (str "AX") 1 true
        [(str "A", 0), (str "C", 0), (str "G", 0), (str "T", 0)] =
      .ok [(str "A", 1), (str "C", 0), (str "G", 0), (str "T", 0), (str "X", 1)] ∧
    ¬ (∀ c ∈ str "N", c ∈ ACTG) ∧ ¬ (∀ c ∈ str "X", c ∈ ACTG) :=
  ⟨rfl, rfl, rfl, by decide, by decide⟩

/-- C7, as the code has it: for a non-empty alphabet `b` of distinct ASCII symbols, `k ≥ 1`,
`k ≤ |x|` and either `drop_n`, in the table counted into `generate_kmer_perm_dict(k, b)` the
value at a universe key `u` is the number of windows of `x` equal to `u` (`0` when `u` does not
occur in `x`), except that it is `0` when `drop_n` is set and `u` contains `N`. -/
theorem anchored_counts (b : CString) (hd : b.Nodup) (hne : b ≠ []) (ha : ∀ c ∈ b, c < 128)
    (x : CString) (k : Nat) (hx : x.length < ULL) (hk1 : 1 ≤ k) (hk : k ≤ x.length)
    (drop_n : Bool) (fuel : Nat) (hfuel : b.length ^ k ≤ fuel + 1) :
    ∃ seed d, generate_kmer_perm_dict fuel (k : Int) b = .ok seed ∧
      make_kmer_paired_list x (k : Int) drop_n seed = .ok d ∧
      ∀ u, u.length = k → (∀ c ∈ u, c ∈ b) →
        mapFind strLt d u = some (if (drop_n && hasN u) = true then 0 else (windows x k).count u) := by
  have hn : 0 < b.length := List.length_pos.2 hne
  obtain ⟨seed, d, h1, h2, _, _, hf, _⟩ := anchored_spec b hd hn (ascii_length b hd ha)
    x k hx hk1 hk drop_n fuel hfuel
  refine ⟨seed, d, h1, h2, ?_⟩
  intro u hul hub
  have hu : u ∈ kmerUniverse (sortChars b) k := by
    rw [mem_kmerUniverse _ (by rw [length_sortChars]; exact hn)]
    exact ⟨hul, fun c hc => (mem_sortChars b c).2 (hub c hc)⟩
  rw [hf u, if_pos hu, ← count_counted]
  by_cases hc : (counted drop_n (windows x k)).count u = 0
  · rw [if_pos hc, hc]
  · rw [if_neg hc]

/-- C7 at `b = "AC"`, `k = 2`, `x = "AA"`: the table is `{AA:1, AC:0, CA:0, CC:0}`. -/
theorem anchored_counts_witness :
    (generate_kmer_perm_dict 3 2 (str "AC") =
      .ok [(str "AA", 0), (str "AC", 0), (str "CA", 0), (str "CC", 0)] ∧
     make_kmer_paired_list (str "AA") 2 false
        [(str "AA", 0), (str "AC", 0), (str "CA", 0), (str "CC", 0)] =
      .ok [(str "AA", 1), (str "AC", 0), (str "CA", 0), (str "CC", 0)]) ∧
    ∃ seed d, generate_kmer_perm_dict 3 ((2 : Nat) : Int) (str "AC") = .ok seed ∧
      make_kmer_paired_list (str "AA") ((2 : Nat) : Int) false seed = .ok d ∧
      ∀ u, u.length = 2 → (∀ c ∈ u, c ∈ str "AC") →
        mapFind strLt d u =
          some (if (false && hasN u) = true then 0 else (windows (str "AA") 2).count u) :=
  ⟨⟨rfl, rfl⟩, anchored_counts (str "AC") (by decide) (by decide) (by decide) (str "AA") 2
    (by decide) (by decide) (by decide) false 3 (by decide)⟩

/-- C7 fails at `b = "AN"`, `k = 1`, `x = "N"`, `drop_n = true`: the universe key `N` has the
value `0` although one window of `x` equals it.  It also fails at the empty alphabet, where
`b.back()` has no defined result. -/
theorem anchored_counts_counterexample :
    generate_kmer_perm_dict 1 1 (str "AN") = .ok [(str "A", 0), (str "N", 0)] ∧
    make_kmer_paired_list (str "N") 1 true [(str "A", 0), (str "N", 0)] =
      .ok [(str "A", 0), (str "N", 0)] ∧
    (windows (str "N") 1).count (str "N") = 1 ∧
    ¬ ∃ fuel seed, generate_kmer_perm_dict fuel 1 [] = .ok seed :=
  ⟨rfl, rfl, by decide, fun ⟨_, _, h⟩ => by simp [generate_kmer_perm_dict, sortChars] at h⟩
/-! ## Window lengths outside `1 .. |x|` -/

theorem count_loop_throws (x : CString) (kmer : Int) (drop_n : Bool) (passes i : Nat) (d : Dict)
    (hi : i ≤ x.length + 1) (hp : x.length + 1 < i + passes) :
    count_loop x kmer drop_n passes i d = .error .out_of_range := by
  induction passes generalizing i d with
  | zero => omega
  | succ p ih =>
    by_cases hlast : x.length < i
    · simp [count_loop, substr, hlast]
    · simp only [count_loop, substr, hlast, if_false]
      exact ih (i + 1) _ (by omega) (by omega)

theorem count_loop_empty_key (x : CString) (drop_n : Bool) (passes i v : Nat) (hv : 1 ≤ v)
    (hb : v + passes < ULL) (hi : i + passes ≤ x.length + 1) :
    count_loop x 0 drop_n passes i [([], v)] = .ok [([], v + passes)] := by
  induction passes generalizing i v with
  | zero => simp [count_loop]
  | succ p ih =>
    have hlast : ¬ x.length < i := by omega
    have hv0 : v ≠ 0 := by omega
    have hmod : (v + 1) % ULL = v + 1 := Nat.mod_eq_of_lt (by omega)
    have hstep : count_step drop_n [([], v)] [] = [([], v + 1)] := by
      simp [count_step, hasN, mapFind, mapSet, strLt, hv0, hmod]
    have h0 : toSize 0 = 0 := by simp [toSize]
    simp only [count_loop, substr, hlast, if_false, h0, List.take_zero, hstep]
    rw [ih (i + 1) (v + 1) (by omega) (by omega) (by omega)]
    congr 3
    omega

theorem ULL_eq : ULL = 18446744073709551616 := by decide

/-- C4, as the code has it: `make_kmer_paired_list` has no check of the window length.  For
`k = 0` it returns the one-entry table `{"": |x| + 1}`; for `k = |x| + 1` it returns the seed
table as it was; for `k < 0` and for `k > |x| + 1` the call of `substr` at `i = |x| + 1` throws
`std::out_of_range` and no table is returned. -/
theorem make_kmer_paired_list_bad_k (x : CString) (hx : x.length < 2 ^ 63) (k : Int)
    (hlo : -(2 ^ 31) ≤ k) (hhi : k < 2 ^ 31) (drop_n : Bool) (seed : Dict) :
    (k = 0 → make_kmer_paired_list x k drop_n [] = .ok [([], x.length + 1)]) ∧
    (k = (x.length : Int) + 1 → make_kmer_paired_list x k drop_n seed = .ok seed) ∧
    (k < 0 ∨ (x.length : Int) + 1 < k →
      make_kmer_paired_list x k drop_n seed = .error .out_of_range) := by
  refine ⟨?_, ?_, ?_⟩
  · rintro rfl
    have hw : windowCount x 0 = x.length + 1 := by
      simp only [windowCount, ULL_eq]; omega
    unfold make_kmer_paired_list
    rw [hw]
    have h0 : toSize 0 = 0 := by simp [toSize]
    have hstep : count_step drop_n [] [] = [([], 1)] := by
      simp [count_step, hasN, mapFind, mapSet]
    simp only [count_loop, substr, Nat.not_lt_zero, if_false, h0, List.take_zero, hstep]
    rw [count_loop_empty_key x drop_n x.length 1 1 (by omega) (by rw [ULL_eq]; omega) (by omega)]
    congr 3
    omega
  · rintro rfl
    have hw : windowCount x ((x.length : Int) + 1) = 0 := by
      simp only [windowCount, ULL_eq]; omega
    unfold make_kmer_paired_list
    rw [hw]
    rfl
  · intro h
    have hw : x.length + 1 < windowCount x k := by
      simp only [windowCount, ULL_eq]; omega
    unfold make_kmer_paired_list
    exact count_loop_throws x k drop_n _ 0 seed (by omega) (by omega)

/-- C4's amended statement at `x = "AACGT"`, `k = 7`: `std::out_of_range`. -/
theorem make_kmer_paired_list_bad_k_witness :
    make_kmer_paired_list (str "AACGT") 7 false [] = .error .out_of_range :=
  (make_kmer_paired_list_bad_k (str "AACGT") (by decide) 7 (by decide) (by decide) false []).2.2
    (Or.inr (by decide))

/-- C4 fails at `x = "AACGT"`: with `k = 0` the table `{"": 6}` is returned, with `k = 6` the
empty table, by `make_kmer_paired_list`, by `kmers_pointed` and by `kmers`. -/
theorem make_kmer_paired_list_bad_k_counterexample :
    make_kmer_paired_list (str "AACGT") 0 false [] = .ok [(str "", 6)] ∧
    make_kmer_paired_list (str "AACGT") 6 false [] = .ok [] ∧
    kmers_pointed 0 (str "AACGT") 0 false false true false false = .ok (.strings [str ""] [6]) ∧
    kmers_pointed 0 (str "AACGT") 6 false false true false false = .ok (.strings [] []) ∧
    kmers 6 (str "AACGT") 0 = .ok (.strings [str ""] [6]) ∧
    kmers 0 (str "AACGT") 6 = .ok (.strings [] []) :=
  ⟨rfl, rfl, rfl, rfl, rfl, rfl⟩

/-! ## Unsorted and repeated alphabet symbols -/

theorem permute_loop_stuck (fuel : Nat) (out : List CString) (h : out.getLast? = some [65]) :
    permute_loop [65, 65, 67] 67 65 [67] fuel out = .error .no_return := by
  induction fuel generalizing out with
  | zero =>
    unfold permute_loop
    rw [h]
    rfl
  | succ f ih =>
    unfold permute_loop
    rw [h]
    have hs : successor [65, 65, 67] 67 65 [65] = .ok [65] := rfl
    have hlt : strLt [65] [67] = true := rfl
    simp only [hlt, if_true, hs]
    exact ih _ (getLast?_snoc _ _)

/-- C9, as the code has it: for a non-empty alphabet `b` of distinct ASCII symbols, in any
order, `permute_kmers(k, b)` and the keys of `generate_kmer_perm_dict(k, b)` are the universe
returned for the sorted, de-duplicated form of `b`; an unsorted alphabet is no error. -/
theorem permute_kmers_unsorted (b : CString) (hd : b.Nodup) (hne : b ≠ [])
    (ha : ∀ c ∈ b, c < 128) (k : Nat) (_hk : 1 ≤ k) (fuel : Nat)
    (hfuel : b.length ^ k ≤ fuel + 1) :
    ∃ U, permute_kmers fuel (k : Int) b = .ok U ∧
      permute_kmers fuel (k : Int) (sortChars b.dedup) = .ok U ∧
      (∃ seed, generate_kmer_perm_dict fuel (k : Int) b = .ok seed ∧ keys seed = U) ∧
      (∃ seed, generate_kmer_perm_dict fuel (k : Int) (sortChars b.dedup) = .ok seed ∧
        keys seed = U) := by
  have hn : 0 < b.length := List.length_pos.2 hne
  have hlen := ascii_length b hd ha
  have hkeys : keys ((kmerUniverse (sortChars b) k).map (fun s => (s, 0))) =
      kmerUniverse (sortChars b) k := by
    simp [keys, List.map_map, Function.comp_def]
  have hd2 : (sortChars b).Nodup := nodup_of_strict _ (sortChars_strict b hd)
  rw [hd.dedup]
  refine ⟨kmerUniverse (sortChars b) k, permute_kmers_eq b hd hn hlen k fuel hfuel, ?_,
    ⟨_, generate_kmer_perm_dict_eq b hd hn hlen k fuel hfuel, hkeys⟩, ?_⟩
  · have := permute_kmers_eq (sortChars b) hd2 (by rw [length_sortChars]; exact hn)
      (by rw [length_sortChars]; exact hlen) k fuel (by rw [length_sortChars]; exact hfuel)
    rw [sortChars_idem b hd] at this
    exact this
  · have := generate_kmer_perm_dict_eq (sortChars b) hd2 (by rw [length_sortChars]; exact hn)
      (by rw [length_sortChars]; exact hlen) k fuel (by rw [length_sortChars]; exact hfuel)
    rw [sortChars_idem b hd] at this
    exact ⟨_, this, hkeys⟩

/-- C9's amended statement at `b = "CA"`, `k = 2`: the universe `[AA, AC, CA, CC]` of `"AC"`. -/
theorem permute_kmers_unsorted_witness :
    permute_kmers 3 2 (str "CA") = .ok [str "AA", str "AC", str "CA", str "CC"] ∧
    ∃ U, permute_kmers 3 ((2 : Nat) : Int) (str "CA") = .ok U ∧
      permute_kmers 3 ((2 : Nat) : Int) (sortChars (str "CA").dedup) = .ok U ∧
      (∃ seed, generate_kmer_perm_dict 3 ((2 : Nat) : Int) (str "CA") = .ok seed ∧
        keys seed = U) ∧
      (∃ seed, generate_kmer_perm_dict 3 ((2 : Nat) : Int) (sortChars (str "CA").dedup) =
        .ok seed ∧ keys seed = U) :=
  ⟨rfl, permute_kmers_unsorted (str "CA") (by decide) (by decide) (by decide) 2 (by decide) 3
    (by decide)⟩

/-- C9 fails at `b = "AAC"`, `k = 1`: the sorted, de-duplicated alphabet `"AC"` gives `[A, C]`,
but with `"AAC"` the successor of `A` is `b[b.find('A') + 1] = 'A'` again, so the loop never
reaches `C` and no list is returned. -/
theorem permute_kmers_unsorted_counterexample :
    permute_kmers 1 1 (sortChars (str "AAC").dedup) = .ok [str "A", str "C"] ∧
    ¬ ∃ fuel out, permute_kmers fuel 1 (str "AAC") = .ok out := by
  refine ⟨rfl, ?_⟩
  rintro ⟨fuel, out, h⟩
  have hstuck : permute_kmers fuel 1 (str "AAC") = .error .no_return :=
    permute_loop_stuck fuel [[65]] rfl
  rw [hstuck] at h
  cases h
/-! ## Ranks -/

theorem sortChars_ACTG : sortChars ACTG = [65, 67, 71, 84] := by decide

theorem rank4_snoc (s : CString) (c : Nat) : rank4 (s ++ [c]) = 4 * rank4 s + baseDigit c := by
  simp [rank4, List.foldl_append]

theorem rank4_kth (k i : Nat) (hi : i < 4 ^ k) : rank4 (kth [65, 67, 71, 84] k i) = i := by
  induction k generalizing i with
  | zero =>
    simp only [pow_zero, Nat.lt_one_iff] at hi
    subst hi
    rfl
  | succ k ih =>
    rw [kth_succ, rank4_snoc]
    have hlen : ([65, 67, 71, 84] : CString).length = 4 := rfl
    rw [hlen]
    have hq : i / 4 < 4 ^ k := by
      rw [Nat.div_lt_iff_lt_mul (by norm_num), ← pow_succ]; exact hi
    rw [ih _ hq]
    have hr : i % 4 < 4 := Nat.mod_lt _ (by norm_num)
    have hdig : baseDigit (([65, 67, 71, 84] : CString).getD (i % 4) 0) = i % 4 := by
      generalize i % 4 = r at hr
      interval_cases r <;> rfl
    rw [hdig]
    omega

theorem kth_inj (b : CString) (hb : b.Pairwise (fun a c => a < c)) (k i j : Nat)
    (hi : i < b.length ^ k) (hj : j < b.length ^ k) (h : kth b k i = kth b k j) : i = j := by
  rcases Nat.lt_trichotomy i j with hlt | heq | hgt
  · have := kth_lt b hb k i j hlt hj
    rw [h, strLt_irrefl] at this; cases this
  · exact heq
  · have := kth_lt b hb k j i hgt hi
    rw [h, strLt_irrefl] at this; cases this

theorem kth_lt_iff (b : CString) (hb : b.Pairwise (fun a c => a < c)) (k i j : Nat)
    (hi : i < b.length ^ k) (h : strLt (kth b k i) (kth b k j) = true) :
    i < j := by
  by_contra hge
  rcases Nat.eq_or_lt_of_le (Nat.le_of_not_lt hge) with heq | hlt
  · rw [heq, strLt_irrefl] at h; cases h
  · have := kth_lt b hb k j i hlt hi
    rw [strLt_order.asymm _ _ this] at h; cases h

theorem getElem?_kmerUniverse (b : CString) (k i : Nat) (hi : i < b.length ^ k) :
    (kmerUniverse b k)[i]? = some (kth b k i) := by
  simp [kmerUniverse, List.getElem?_map, List.getElem?_range hi]

theorem assign_ranks_range (f : Nat → CString) (n a : Nat) (c : Int)
    (h : c + a + n ≤ INT_MAX) :
    assign_ranks ((List.range' a n).map (fun j => (f j, 0))) (c + a) =
      .ok ((List.range' a n).map (fun j => (f j, toSize (c + j)))) := by
  induction n generalizing a with
  | zero => simp [assign_ranks]
  | succ n ih =>
    have hno : ¬ INT_MAX < c + (a : Int) + 1 := by push_cast at h; omega
    have hrec := ih (a + 1) (by push_cast at h ⊢; omega)
    have hcast : c + ((a + 1 : Nat) : Int) = c + (a : Int) + 1 := by push_cast; omega
    rw [hcast] at hrec
    simp only [List.range'_succ, List.map_cons, assign_ranks, hno, if_false, hrec]

theorem mapFind_map_inj (l : List Nat) (f : Nat → CString) (g : Nat → Nat)
    (hinj : ∀ a ∈ l, ∀ c ∈ l, f a = f c → a = c) (i : Nat) (hi : i ∈ l) :
    mapFind strLt (l.map (fun j => (f j, g j))) (f i) = some (g i) := by
  induction l with
  | nil => simp at hi
  | cons a l ih =>
    by_cases hia : f i = f a
    · have : i = a := hinj i hi a (List.mem_cons_self _ _) hia
      subst this
      simp [mapFind, strLt_irrefl]
    · have hk' : (!strLt (f i) (f a) && !strLt (f a) (f i)) = false := by
        rw [Bool.eq_false_iff]; intro hh; exact hia ((strLt_order.equiv_iff _ _).1 hh)
      have hil : i ∈ l := by
        rcases List.mem_cons.1 hi with rfl | h
        · exact absurd rfl hia
        · exact h
      simp only [List.map_cons, mapFind, hk', Bool.false_eq_true, if_false]
      exact ih (fun a ha c hc => hinj a (List.mem_cons_of_mem _ ha) c (List.mem_cons_of_mem _ hc))
        hil

theorem translate_sorted (ranked : Dict) (P : CString → Prop) (r : CString → Nat)
    (hfind : ∀ s, P s → mapFind strLt ranked s = some (r s))
    (hmono : ∀ s t, P s → P t → strLt s t = true → r s < r t)
    (x : Dict) (out : Map Nat) (hs : Sorted strLt x) (hP : ∀ s ∈ keys x, P s)
    (hout : ∀ q ∈ keys out, ∀ s ∈ keys x, q < r s) :
    translate x ranked out = out ++ x.map (fun e => (r e.1, e.2)) := by
  induction x generalizing out with
  | nil => simp [translate]
  | cons e x ih =>
    obtain ⟨s, c⟩ := e
    rw [sorted_cons] at hs
    have hPs : P s := hP s (by simp [keys])
    have hidx : mapIndex strLt ranked s = (r s, ranked) := by
      simp [mapIndex, hfind s hPs]
    have hset : mapSet natLt out (r s) c = out ++ [(r s, c)] := by
      apply mapSet_append natLt_order
      intro q hq
      have := hout q hq s (by simp [keys])
      simpa [natLt] using this
    simp only [translate, hidx, hset]
    rw [ih (out ++ [(r s, c)]) hs.2 (fun t ht => hP t (by
      simp only [keys, List.map_cons, List.mem_cons] at ht ⊢; exact Or.inr ht))]
    · simp
    · intro q hq t ht
      have hPt : P t := hP t (by
        simp only [keys, List.map_cons, List.mem_cons] at ht ⊢; exact Or.inr ht)
      simp only [keys, List.map_append, List.map_cons, List.map_nil, List.mem_append,
        List.mem_singleton] at hq
      rcases hq with hq | rfl
      · exact hout q hq t (by
          simp only [keys, List.map_cons, List.mem_cons] at ht ⊢; exact Or.inr ht)
      · exact hmono s t hPs hPt (hs.1 t ht)
theorem toSize_add (index : Int) (j : Nat) (h0 : 0 ≤ index) (h : index + j ≤ INT_MAX) :
    toSize (index + j) = j + index.toNat := by
  simp only [toSize, ULL_eq, INT_MAX] at *
  omega

/-- C10, as the code has it: for `k ≥ 1`, an offset `index ≥ 0` with `index + 4 ^ k ≤ INT_MAX`
and a table `x` whose keys are strings of length `k` over `{A,C,G,T}`,
`convert_kmer_string_to_index(x, k, index)` returns the table with, for each entry `(s, c)` of
`x`, the entry `(p(s) + index, c)` and no other entry; `p(s)` is the base-4 value of `s`, which
is the position of `s` in the list `permute_kmers(k, "ACTG")`. -/
theorem convert_kmer_string_to_index_ranks (x : Dict) (hs : Sorted strLt x) (k : Nat)
    (_hk1 : 1 ≤ k) (hkeys : ∀ s ∈ keys x, s.length = k ∧ ∀ c ∈ s, c ∈ ACTG)
    (index : Int) (h0 : 0 ≤ index) (hmax : index + 4 ^ k ≤ INT_MAX) (fuel : Nat)
    (hfuel : 4 ^ k ≤ fuel + 1) :
    convert_kmer_string_to_index fuel x (k : Int) index =
      .ok (x.map (fun e => (rank4 e.1 + index.toNat, e.2))) ∧
    ∃ U, permute_kmers fuel (k : Int) ACTG = .ok U ∧ ∀ s ∈ keys x, U[rank4 s]? = some s := by
  have hB : ([65, 67, 71, 84] : CString).Pairwise (fun a c => a < c) := by decide
  have hlenB : ([65, 67, 71, 84] : CString).length = 4 := rfl
  have hgen := generate_kmer_perm_dict_eq ACTG (by decide) (by decide) (by decide) k fuel hfuel
  have hperm := permute_kmers_eq ACTG (by decide) (by decide) (by decide) k fuel hfuel
  rw [sortChars_ACTG] at hgen hperm
  have hmemU : ∀ s ∈ keys x, ∃ i, i < 4 ^ k ∧ s = kth [65, 67, 71, 84] k i := by
    intro s hsx
    have hin : s ∈ kmerUniverse [65, 67, 71, 84] k := by
      rw [mem_kmerUniverse _ (by decide)]
      refine ⟨(hkeys s hsx).1, fun c hc => ?_⟩
      have := (hkeys s hsx).2 c hc
      simp only [ACTG, List.mem_cons, List.mem_singleton, List.not_mem_nil, or_false] at this ⊢
      omega
    simp only [kmerUniverse, List.mem_map, List.mem_range, hlenB] at hin
    obtain ⟨i, hi, rfl⟩ := hin
    exact ⟨i, hi, rfl⟩
  constructor
  · unfold convert_kmer_string_to_index
    rw [hgen]
    have hseed : (kmerUniverse [65, 67, 71, 84] k).map (fun s => (s, 0)) =
        (List.range' 0 (4 ^ k)).map (fun j => (kth [65, 67, 71, 84] k j, 0)) := by
      simp [kmerUniverse, List.map_map, Function.comp_def, List.range_eq_range']
    have hranks := assign_ranks_range (kth [65, 67, 71, 84] k) (4 ^ k) 0 index
      (by push_cast; omega)
    simp only [CharP.cast_eq_zero, add_zero] at hranks
    simp only [hseed, hranks]
    congr 1
    have := translate_sorted
      ((List.range' 0 (4 ^ k)).map (fun j => (kth [65, 67, 71, 84] k j, toSize (index + j))))
      (fun s => ∃ i, i < 4 ^ k ∧ s = kth [65, 67, 71, 84] k i)
      (fun s => rank4 s + index.toNat) ?_ ?_ x [] hs hmemU (by simp [keys])
    · simpa using this
    · rintro s ⟨i, hi, rfl⟩
      rw [mapFind_map_inj (List.range' 0 (4 ^ k)) (kth [65, 67, 71, 84] k)
        (fun j => toSize (index + j)) ?_ i (by simp [List.mem_range']; exact hi)]
      · dsimp only
        rw [rank4_kth k i hi, toSize_add index i h0 (by
          have : (i : Int) < 4 ^ k := by exact_mod_cast hi
          omega)]
      · intro a ha c hc hac
        simp only [List.mem_range'_1, Nat.zero_le, Nat.zero_add, true_and] at ha hc
        exact kth_inj _ hB k a c (by rw [hlenB]; exact ha) (by rw [hlenB]; exact hc) hac
    · rintro s t ⟨i, hi, rfl⟩ ⟨j, hj, rfl⟩ hst
      dsimp only
      rw [rank4_kth k i hi, rank4_kth k j hj]
      have := kth_lt_iff _ hB k i j (by rw [hlenB]; exact hi) hst
      omega
  · refine ⟨_, hperm, ?_⟩
    intro s hsx
    obtain ⟨i, hi, rfl⟩ := hmemU s hsx
    rw [rank4_kth k i hi]
    exact getElem?_kmerUniverse _ k i (by rw [hlenB]; exact hi)

/-- C10's amended statement at `k = 2`, `index = 1`, `x = {AC:5, TT:2}`: `{2:5, 16:2}`. -/
theorem convert_kmer_string_to_index_ranks_witness :
    convert_kmer_string_to_index 15 [(str "AC", 5), (str "TT", 2)] 2 1 = .ok [(2, 5), (16, 2)] ∧
    (convert_kmer_string_to_index 15 [(str "AC", 5), (str "TT", 2)] ((2 : Nat) : Int) 1 =
      .ok ([(str "AC", 5), (str "TT", 2)].map (fun e => (rank4 e.1 + (1 : Int).toNat, e.2))) ∧
    ∃ U, permute_kmers 15 ((2 : Nat) : Int) ACTG = .ok U ∧
      ∀ s ∈ keys [(str "AC", 5), (str "TT", 2)], U[rank4 s]? = some s) :=
  ⟨rfl, convert_kmer_string_to_index_ranks [(str "AC", 5), (str "TT", 2)]
    (by unfold Sorted keys; decide) 2
    (by decide) (by decide) 1 (by decide) (by decide) 15 (by decide)⟩

/-- C10 fails at `index = INT_MAX = 2147483647`, `k = 1`, `x = {C:1}`: after `A` has received
`2147483647` the statement `index++` overflows the `int`, so `C` is not given `2147483648`. -/
theorem convert_kmer_string_to_index_ranks_counterexample :
    convert_kmer_string_to_index 3 [(str "C", 1)] 1 2147483647 = .error .undefined ∧
    convert_kmer_string_to_index 3 [(str "C", 1)] 1 2147483642 = .ok [(2147483643, 1)] :=
  ⟨rfl, rfl⟩
/-! ## The empty sequence -/

/-- C14: for the empty sequence `kmers_pointed` returns the empty list `List()`, for every
`kmer` and every combination of `simplify`, `anchor`, `clean_up`, `key_as_int` and
`starting_index`, and raises nothing. -/
theorem kmers_pointed_empty (fuel : Nat) (kmer : Int)
    (simplify anchor clean_up key_as_int starting_index : Bool) :
    kmers_pointed fuel [] kmer simplify anchor clean_up key_as_int starting_index =
      .ok .empty := by
  have hv : is_valid_dna_string [] = false := by simp [is_valid_dna_string]
  unfold kmers_pointed
  rw [hv]
  rfl

/-! ## First and last element, and the two odometers -/

theorem head?_kmerUniverse (b : CString) (hn : 0 < b.length) (k : Nat) :
    (kmerUniverse b k).head? = some (List.replicate k (b.getD 0 0)) := by
  have hpos : 0 < b.length ^ k := pow_pos hn k
  unfold kmerUniverse
  obtain ⟨m, hm⟩ : ∃ m, b.length ^ k = m + 1 := ⟨b.length ^ k - 1, by omega⟩
  rw [hm, List.range_succ_eq_map]
  simp [kth_zero]

theorem getLast?_kmerUniverse (b : CString) (hn : 0 < b.length) (k : Nat) :
    (kmerUniverse b k).getLast? = some (List.replicate k (b.getD (b.length - 1) 0)) := by
  have hpos : 0 < b.length ^ k := pow_pos hn k
  unfold kmerUniverse
  obtain ⟨m, hm⟩ : ∃ m, b.length ^ k = m + 1 := ⟨b.length ^ k - 1, by omega⟩
  have hl := kth_last b hn k
  rw [hm] at hl ⊢
  rw [List.range_succ, List.map_append, List.map_cons, List.map_nil, getLast?_snoc]
  simpa using hl

theorem getD_zero_le (b : CString) (hb : b.Pairwise (fun a c => a < c)) (c : Nat) (hc : c ∈ b) :
    b.getD 0 0 ≤ c := by
  obtain ⟨j, hj, rfl⟩ := List.getElem_of_mem hc
  rcases Nat.eq_zero_or_pos j with h0 | hpos
  · subst h0; rw [List.getD_eq_getElem b 0 hj]
  · have := getD_lt_of_lt b hb 0 j hpos hj
    rw [List.getD_eq_getElem b 0 hj] at this
    omega

theorem le_getD_last (b : CString) (hb : b.Pairwise (fun a c => a < c)) (c : Nat) (hc : c ∈ b) :
    c ≤ b.getD (b.length - 1) 0 := by
  obtain ⟨j, hj, rfl⟩ := List.getElem_of_mem hc
  rcases Nat.lt_or_ge j (b.length - 1) with hlt | hge
  · have := getD_lt_of_lt b hb j (b.length - 1) hlt (by omega)
    rw [List.getD_eq_getElem b 0 hj] at this
    omega
  · have : j = b.length - 1 := by omega
    subst this
    rw [List.getD_eq_getElem b 0 hj]

theorem getD_mem (b : CString) (j : Nat) (hj : j < b.length) : b.getD j 0 ∈ b := by
  rw [List.getD_eq_getElem b 0 hj]
  exact List.getElem_mem _

/-- C17: for an alphabet `b` of one or more distinct ASCII symbols and `k ≥ 1`, the first element
of `permute_kmers(k, b)` is `k` copies of the smallest symbol of `b` and the last element is
`k` copies of the largest symbol of `b`. -/
theorem permute_kmers_first_last (b : CString) (hd : b.Nodup) (hne : b ≠ [])
    (ha : ∀ c ∈ b, c < 128) (k : Nat) (_hk : 1 ≤ k) (fuel : Nat)
    (hfuel : b.length ^ k ≤ fuel + 1) :
    ∃ out lo hi, permute_kmers fuel (k : Int) b = .ok out ∧
      lo ∈ b ∧ hi ∈ b ∧ (∀ c ∈ b, lo ≤ c ∧ c ≤ hi) ∧
      out.head? = some (List.replicate k lo) ∧
      out.getLast? = some (List.replicate k hi) := by
  have hn : 0 < b.length := List.length_pos.2 hne
  have hnB : 0 < (sortChars b).length := by rw [length_sortChars]; exact hn
  have hB := sortChars_strict b hd
  refine ⟨_, (sortChars b).getD 0 0, (sortChars b).getD ((sortChars b).length - 1) 0,
    permute_kmers_eq b hd hn (ascii_length b hd ha) k fuel hfuel, ?_, ?_, ?_,
    head?_kmerUniverse _ hnB k, getLast?_kmerUniverse _ hnB k⟩
  · exact (mem_sortChars b _).1 (getD_mem _ 0 hnB)
  · exact (mem_sortChars b _).1 (getD_mem _ _ (by omega))
  · intro c hc
    have hcB := (mem_sortChars b c).2 hc
    exact ⟨getD_zero_le _ hB c hcB, le_getD_last _ hB c hcB⟩

/-- C17 at `b = "CA"`, `k = 2`: the first element is `AA`, the last is `CC`. -/
theorem permute_kmers_first_last_witness :
    ∃ out lo hi, permute_kmers 3 ((2 : Nat) : Int) (str "CA") = .ok out ∧
      lo ∈ str "CA" ∧ hi ∈ str "CA" ∧ (∀ c ∈ str "CA", lo ≤ c ∧ c ≤ hi) ∧
      out.head? = some (List.replicate 2 lo) ∧
      out.getLast? = some (List.replicate 2 hi) :=
  permute_kmers_first_last (str "CA") (by decide) (by decide) (by decide) 2 (by decide) 3
    (by decide)

/-- C18: for an alphabet `b` of one or more distinct ASCII symbols and `k ≥ 1`, the keys of
`generate_kmer_perm_dict(k, b)` in ascending order are the list `permute_kmers(k, b)`, and every
value of that map is `0`. -/
theorem perm_dict_keys_eq_permute_kmers (b : CString) (hd : b.Nodup) (hne : b ≠ [])
    (ha : ∀ c ∈ b, c < 128) (k : Nat) (_hk : 1 ≤ k) (fuel : Nat)
    (hfuel : b.length ^ k ≤ fuel + 1) :
    ∃ out seed, permute_kmers fuel (k : Int) b = .ok out ∧
      generate_kmer_perm_dict fuel (k : Int) b = .ok seed ∧
      Sorted strLt seed ∧ keys seed = out ∧ ∀ e ∈ seed, e.2 = 0 := by
  have hn : 0 < b.length := List.length_pos.2 hne
  have hlen := ascii_length b hd ha
  refine ⟨_, _, permute_kmers_eq b hd hn hlen k fuel hfuel,
    generate_kmer_perm_dict_eq b hd hn hlen k fuel hfuel,
    sorted_seed _ (sortChars_strict b hd) k, ?_, ?_⟩
  · simp [keys, List.map_map, Function.comp_def]
  · intro e he
    simp only [List.mem_map] at he
    obtain ⟨s, _, rfl⟩ := he
    rfl

/-- C18 at `b = "ACTG"`, `k = 1`. -/
theorem perm_dict_keys_eq_permute_kmers_witness :
    ∃ out seed, permute_kmers 3 ((1 : Nat) : Int) ACTG = .ok out ∧
      generate_kmer_perm_dict 3 ((1 : Nat) : Int) ACTG = .ok seed ∧
      Sorted strLt seed ∧ keys seed = out ∧ ∀ e ∈ seed, e.2 = 0 :=
  perm_dict_keys_eq_permute_kmers ACTG (by decide) (by decide) (by decide) 1 (by decide) 3
    (by decide)
/-! ## `kmers_pointed` on a sequence over `{A,C,G,T}` -/

theorem mapFind_map_pair (U : List CString) (f : CString → Nat) (s : CString) :
    mapFind strLt (U.map (fun u => (u, f u))) s = if s ∈ U then some (f s) else none := by
  induction U with
  | nil => simp [mapFind]
  | cons u U ih =>
    by_cases hs : s = u
    · subst hs; simp [mapFind, strLt_irrefl]
    · have hk' : (!strLt s u && !strLt u s) = false := by
        rw [Bool.eq_false_iff]; intro hh; exact hs ((strLt_order.equiv_iff _ _).1 hh)
      simp only [List.map_cons, mapFind, hk', Bool.false_eq_true, if_false, ih, List.mem_cons, hs,
        false_or]

theorem sorted_map_pair (U : List CString) (hU : U.Pairwise (fun s t => strLt s t = true))
    (f : CString → Nat) : Sorted strLt (U.map (fun u => (u, f u))) := by
  unfold Sorted keys
  rw [List.map_map]
  have : (Prod.fst ∘ fun u : CString => (u, f u)) = id := by funext s; rfl
  rw [this, List.map_id]
  exact hU

theorem hasN_window (x : CString) (hxs : ∀ c ∈ x, c ∈ ACTG) (k i : Nat) :
    hasN (window x k i) = false := by
  rw [Bool.eq_false_iff]
  intro h
  simp only [hasN, List.contains_iff_exists_mem_beq, beq_iff_eq] at h
  obtain ⟨c, hc, rfl⟩ := h
  have := hxs 78 (mem_of_mem_window x k i 78 hc)
  simp [ACTG] at this

theorem counted_windows (x : CString) (hxs : ∀ c ∈ x, c ∈ ACTG) (k : Nat) (drop_n : Bool) :
    counted drop_n (windows x k) = windows x k := by
  unfold counted
  rw [List.filter_eq_self]
  intro w hw
  simp only [windows, List.mem_map] at hw
  obtain ⟨i, _, rfl⟩ := hw
  simp [hasN_window x hxs k i]

theorem window_mem_universe (x : CString) (hxs : ∀ c ∈ x, c ∈ ACTG) (k : Nat)
    (hk : k ≤ x.length) (s : CString) (hs : s ∈ windows x k) :
    s ∈ kmerUniverse (sortChars ACTG) k := by
  obtain ⟨i, hi, rfl⟩ := (mem_windows x k hk s).1 hs
  rw [mem_kmerUniverse _ (by decide)]
  exact ⟨length_window x k i (by omega),
    fun c hc => (mem_sortChars ACTG c).2 (hxs c (mem_of_mem_window x k i c hc))⟩

/-- On a sequence over `{A,C,G,T}` the table counted into the zero-filled universe is the
universe, each key with its number of windows. -/
theorem anchored_table_eq (x : CString) (hxs : ∀ c ∈ x, c ∈ ACTG) (k : Nat)
    (hx : x.length < ULL) (hk1 : 1 ≤ k) (hk : k ≤ x.length) (drop_n : Bool) :
    (windows x k).foldl (count_step drop_n)
        ((kmerUniverse (sortChars ACTG) k).map (fun s => (s, 0))) =
      (kmerUniverse (sortChars ACTG) k).map (fun u => (u, (windows x k).count u)) := by
  have hlen : (windows x k).length < ULL := by rw [length_windows]; omega
  have hU := kmerUniverse_sorted (sortChars ACTG) (sortChars_strict ACTG (by decide)) k
  obtain ⟨hs, hf, _⟩ := fold_count_spec drop_n _
    (sorted_seed (sortChars ACTG) (sortChars_strict ACTG (by decide)) k) (by simp)
    (windows x k) hlen
  apply sorted_ext strLt_order _ _ hs (sorted_map_pair _ hU _)
  intro s
  rw [hf s, mapFind_seed, mapFind_map_pair, counted_windows x hxs k drop_n]
  by_cases hc : (windows x k).count s = 0
  · rw [if_pos hc, hc]
  · rw [if_neg hc]
    have hin : s ∈ windows x k := by
      by_contra hnot; exact hc (List.count_eq_zero.2 hnot)
    rw [if_pos (window_mem_universe x hxs k hk s hin)]

theorem is_valid_of_pos (x : CString) (h : 0 < x.length) : is_valid_dna_string x = true := by
  simp [is_valid_dna_string, h]

/-- C13: for `x` over `{A,C,G,T}` and `1 ≤ k ≤ |x|`, `kmers_pointed` with `anchor = true`,
`simplify = true`, `key_as_int = false` returns a sequence of `4 ^ k` counts whose `i`-th element
is the number of windows of `x` equal to the `i`-th string of the ordered universe over
`{A,C,G,T}`. -/
theorem kmers_pointed_counts (x : CString) (hxs : ∀ c ∈ x, c ∈ ACTG) (k : Nat)
    (hx : x.length < ULL) (hk1 : 1 ≤ k) (hk : k ≤ x.length) (clean_up starting_index : Bool)
    (fuel : Nat) (hfuel : 4 ^ k ≤ fuel + 1) :
    ∃ U, permute_kmers fuel (k : Int) ACTG = .ok U ∧ U.length = 4 ^ k ∧
      kmers_pointed fuel x (k : Int) true true clean_up false starting_index =
        .ok (.counts (U.map (fun u => (windows x k).count u))) := by
  have hperm := permute_kmers_eq ACTG (by decide) (by decide) (by decide) k fuel hfuel
  have hgen := generate_kmer_perm_dict_eq ACTG (by decide) (by decide) (by decide) k fuel hfuel
  refine ⟨_, hperm, ?_, ?_⟩
  · rw [length_kmerUniverse, length_sortChars]; rfl
  · unfold kmers_pointed
    rw [is_valid_of_pos x (by omega), hgen]
    simp only [Bool.not_true, Bool.false_eq_true, if_false, if_true]
    rw [make_kmer_paired_list_eq_fold x k hk1 hk hx clean_up _,
      anchored_table_eq x hxs k hx hk1 hk clean_up]
    simp [values, List.map_map, Function.comp_def]

/-- C13 at `x = "AACGT"`, `k = 1`: the counts of `A, C, G, T` are `2, 1, 1, 1`. -/
theorem kmers_pointed_counts_witness :
    kmers_pointed 3 (str "AACGT") 1 true true true false false = .ok (.counts [2, 1, 1, 1]) ∧
    ∃ U, permute_kmers 3 ((1 : Nat) : Int) ACTG = .ok U ∧ U.length = 4 ^ 1 ∧
      kmers_pointed 3 (str "AACGT") ((1 : Nat) : Int) true true true false false =
        .ok (.counts (U.map (fun u => (windows (str "AACGT") 1).count u))) :=
  ⟨rfl, kmers_pointed_counts (str "AACGT") (by decide) 1 (by decide) (by decide) (by decide)
    true false 3 (by decide)⟩
/-! ## Ranks of a whole table -/

theorem mem_universe_iff (k : Nat) (s : CString) :
    (s.length = k ∧ ∀ c ∈ s, c ∈ ACTG) ↔ ∃ i, i < 4 ^ k ∧ s = kth [65, 67, 71, 84] k i := by
  have hlenB : ([65, 67, 71, 84] : CString).length = 4 := rfl
  have hmem : (s.length = k ∧ ∀ c ∈ s, c ∈ ACTG) ↔ s ∈ kmerUniverse [65, 67, 71, 84] k := by
    rw [mem_kmerUniverse _ (by decide)]
    constructor
    · rintro ⟨h1, h2⟩
      refine ⟨h1, fun c hc => ?_⟩
      have := h2 c hc
      simp only [ACTG, List.mem_cons, List.mem_singleton, List.not_mem_nil, or_false] at this ⊢
      omega
    · rintro ⟨h1, h2⟩
      refine ⟨h1, fun c hc => ?_⟩
      have := h2 c hc
      simp only [ACTG, List.mem_cons, List.mem_singleton, List.not_mem_nil, or_false] at this ⊢
      omega
  rw [hmem]
  simp only [kmerUniverse, List.mem_map, List.mem_range, hlenB]
  constructor
  · rintro ⟨i, hi, rfl⟩; exact ⟨i, hi, rfl⟩
  · rintro ⟨i, hi, rfl⟩; exact ⟨i, hi, rfl⟩

/-- The table of ranks that `convert_kmer_string_to_index` builds before it reads `x`. -/
theorem ranked_table (k : Nat) (index : Int) (hmax : index + 4 ^ k ≤ INT_MAX) (fuel : Nat)
    (hfuel : 4 ^ k ≤ fuel + 1) :
    ∃ perms_dict, generate_kmer_perm_dict fuel (k : Int) ACTG = .ok perms_dict ∧
      assign_ranks perms_dict index = .ok ((List.range' 0 (4 ^ k)).map
        (fun j => (kth [65, 67, 71, 84] k j, toSize (index + j)))) := by
  have hgen := generate_kmer_perm_dict_eq ACTG (by decide) (by decide) (by decide) k fuel hfuel
  rw [sortChars_ACTG] at hgen
  refine ⟨_, hgen, ?_⟩
  have hseed : (kmerUniverse [65, 67, 71, 84] k).map (fun s => (s, 0)) =
      (List.range' 0 (4 ^ k)).map (fun j => (kth [65, 67, 71, 84] k j, 0)) := by
    simp [kmerUniverse, List.map_map, Function.comp_def, List.range_eq_range']
  have hranks := assign_ranks_range (kth [65, 67, 71, 84] k) (4 ^ k) 0 index
    (by push_cast; omega)
  simp only [CharP.cast_eq_zero, add_zero] at hranks
  rw [hseed, hranks]

theorem mapFind_ranked (k : Nat) (index : Int) (h0 : 0 ≤ index) (hmax : index + 4 ^ k ≤ INT_MAX)
    (i : Nat) (hi : i < 4 ^ k) :
    mapFind strLt ((List.range' 0 (4 ^ k)).map
        (fun j => (kth [65, 67, 71, 84] k j, toSize (index + j)))) (kth [65, 67, 71, 84] k i) =
      some (rank4 (kth [65, 67, 71, 84] k i) + index.toNat) := by
  have hB : ([65, 67, 71, 84] : CString).Pairwise (fun a c => a < c) := by decide
  have hlenB : ([65, 67, 71, 84] : CString).length = 4 := rfl
  rw [mapFind_map_inj (List.range' 0 (4 ^ k)) (kth [65, 67, 71, 84] k)
    (fun j => toSize (index + j)) ?_ i (by simp [List.mem_range']; exact hi)]
  · rw [rank4_kth k i hi, toSize_add index i h0 (by
      have : (i : Int) < 4 ^ k := by exact_mod_cast hi
      omega)]
  · intro a ha c hc hac
    simp only [List.mem_range'_1, Nat.zero_le, Nat.zero_add, true_and] at ha hc
    exact kth_inj _ hB k a c (by rw [hlenB]; exact ha) (by rw [hlenB]; exact hc) hac

theorem rank4_mono (k : Nat) (s t : CString)
    (hs : ∃ i, i < 4 ^ k ∧ s = kth [65, 67, 71, 84] k i)
    (ht : ∃ i, i < 4 ^ k ∧ t = kth [65, 67, 71, 84] k i) (hst : strLt s t = true) :
    rank4 s < rank4 t := by
  have hB : ([65, 67, 71, 84] : CString).Pairwise (fun a c => a < c) := by decide
  have hlenB : ([65, 67, 71, 84] : CString).length = 4 := rfl
  obtain ⟨i, hi, rfl⟩ := hs
  obtain ⟨j, _, rfl⟩ := ht
  rw [rank4_kth k i hi, rank4_kth k j (by assumption)]
  exact kth_lt_iff _ hB k i j (by rw [hlenB]; exact hi) hst

/-- On a table whose keys are in the universe, `convert_kmer_string_to_index` replaces each
key by its base-4 value plus the offset. -/
theorem convert_eq_map (x : Dict) (hs : Sorted strLt x) (k : Nat)
    (hkeys : ∀ s ∈ keys x, s.length = k ∧ ∀ c ∈ s, c ∈ ACTG)
    (index : Int) (h0 : 0 ≤ index) (hmax : index + 4 ^ k ≤ INT_MAX) (fuel : Nat)
    (hfuel : 4 ^ k ≤ fuel + 1) :
    convert_kmer_string_to_index fuel x (k : Int) index =
      .ok (x.map (fun e => (rank4 e.1 + index.toNat, e.2))) := by
  obtain ⟨perms_dict, hgen, hranks⟩ := ranked_table k index hmax fuel hfuel
  unfold convert_kmer_string_to_index
  simp only [hgen, hranks]
  congr 1
  have := translate_sorted
    ((List.range' 0 (4 ^ k)).map (fun j => (kth [65, 67, 71, 84] k j, toSize (index + j))))
    (fun s => ∃ i, i < 4 ^ k ∧ s = kth [65, 67, 71, 84] k i)
    (fun s => rank4 s + index.toNat) ?_ ?_ x [] hs
    (fun s hsx => (mem_universe_iff k s).1 (hkeys s hsx)) (by simp [keys])
  · simpa using this
  · rintro s ⟨i, hi, rfl⟩
    exact mapFind_ranked k index h0 hmax i hi
  · intro s t hs' ht' hst
    have := rank4_mono k s t hs' ht' hst
    dsimp only
    omega

theorem sorted_ranks (x : Dict) (hs : Sorted strLt x) (k : Nat)
    (hkeys : ∀ s ∈ keys x, s.length = k ∧ ∀ c ∈ s, c ∈ ACTG) (off : Nat) :
    Sorted natLt (x.map (fun e => (rank4 e.1 + off, e.2))) := by
  unfold Sorted keys at hs ⊢
  rw [List.map_map]
  rw [List.pairwise_map] at hs ⊢
  refine List.Pairwise.imp_of_mem ?_ hs
  intro a c ha hc hac
  have h1 := (mem_universe_iff k a.1).1 (hkeys a.1 (List.mem_map_of_mem _ ha))
  have h2 := (mem_universe_iff k c.1).1 (hkeys c.1 (List.mem_map_of_mem _ hc))
  have := rank4_mono k a.1 c.1 h1 h2 hac
  simp only [Function.comp, natLt, decide_eq_true_eq]
  omega

/-- C11, as the code has it: for `k ≥ 1`, an offset `index ≥ 0` with `index + 4 ^ k ≤ INT_MAX`
and a table `x` with keys in the universe of length `k` over `{A,C,G,T}`, replacing each key `r`
of `convert_kmer_string_to_index(x, k, index)` by the universe element at position `r - index`
gives `x` again; the ranks are strictly increasing, so no two keys share a rank, and the number
of entries is that of `x`. -/
theorem convert_round_trip (x : Dict) (hs : Sorted strLt x) (k : Nat) (_hk1 : 1 ≤ k)
    (hkeys : ∀ s ∈ keys x, s.length = k ∧ ∀ c ∈ s, c ∈ ACTG)
    (index : Int) (h0 : 0 ≤ index) (hmax : index + 4 ^ k ≤ INT_MAX) (fuel : Nat)
    (hfuel : 4 ^ k ≤ fuel + 1) :
    ∃ U out, permute_kmers fuel (k : Int) ACTG = .ok U ∧
      convert_kmer_string_to_index fuel x (k : Int) index = .ok out ∧
      out.map (fun e => (U.getD (e.1 - index.toNat) [], e.2)) = x ∧
      out.length = x.length ∧ Sorted natLt out ∧ (keys out).Nodup := by
  have hperm := permute_kmers_eq ACTG (by decide) (by decide) (by decide) k fuel hfuel
  rw [sortChars_ACTG] at hperm
  have hsorted := sorted_ranks x hs k hkeys index.toNat
  refine ⟨_, _, hperm, convert_eq_map x hs k hkeys index h0 hmax fuel hfuel, ?_, ?_, hsorted, ?_⟩
  · rw [List.map_map]
    conv_rhs => rw [← List.map_id x]
    apply List.map_congr_left
    intro e he
    obtain ⟨i, hi, hei⟩ := (mem_universe_iff k e.1).1 (hkeys e.1 (List.mem_map_of_mem _ he))
    have hget := getElem?_kmerUniverse [65, 67, 71, 84] k i hi
    simp only [Function.comp, Nat.add_sub_cancel, id]
    rw [hei, rank4_kth k i hi, List.getD_eq_getElem?_getD, hget]
    rw [← hei]
    rfl
  · simp
  · refine hsorted.imp ?_
    intro a c hac heq
    rw [heq] at hac
    simp [natLt] at hac

/-- C11's amended statement at `k = 2`, `index = 1`, `x = {AC:5, TT:2}`. -/
theorem convert_round_trip_witness :
    ∃ U out, permute_kmers 15 ((2 : Nat) : Int) ACTG = .ok U ∧
      convert_kmer_string_to_index 15 [(str "AC", 5), (str "TT", 2)] ((2 : Nat) : Int) 1 =
        .ok out ∧
      out.map (fun e => (U.getD (e.1 - (1 : Int).toNat) [], e.2)) =
        [(str "AC", 5), (str "TT", 2)] ∧
      out.length = [(str "AC", 5), (str "TT", 2)].length ∧ Sorted natLt out ∧
      (keys out).Nodup :=
  convert_round_trip [(str "AC", 5), (str "TT", 2)] (by unfold Sorted keys; decide) 2
    (by decide) (by decide) 1 (by decide) (by decide) 15 (by decide)

/-- C11 fails at `index = 2147483645`, `k = 1`, `x = {A:1, T:2}`: the third `index++` overflows
the `int`, so no rank-keyed table is there to decode. -/
theorem convert_round_trip_counterexample :
    convert_kmer_string_to_index 3 [(str "A", 1), (str "T", 2)] 1 2147483645 =
      .error .undefined :=
  rfl
/-! ## Keys outside the universe -/

theorem translate_general (P : CString → Prop) [DecidablePred P] (r : CString → Nat)
    (x : Dict) (ranked : Dict) (out : Map Nat)
    (hin : ∀ s, P s → mapFind strLt ranked s = some (r s))
    (hout : ∀ s, ¬ P s → mapFind strLt ranked s = none ∨ mapFind strLt ranked s = some 0) :
    translate x ranked out =
      x.foldl (fun o e => mapSet natLt o (if P e.1 then r e.1 else 0) e.2) out := by
  induction x generalizing ranked out with
  | nil => simp [translate]
  | cons e x ih =>
    obtain ⟨s, c⟩ := e
    simp only [translate, List.foldl_cons]
    by_cases hP : P s
    · have hidx : mapIndex strLt ranked s = (r s, ranked) := by
        simp [mapIndex, hin s hP]
      rw [hidx, if_pos hP]
      exact ih ranked _ hin hout
    · rw [if_neg hP]
      rcases hout s hP with hnone | hzero
      · have hidx : mapIndex strLt ranked s = (0, mapSet strLt ranked s 0) := by
          simp [mapIndex, hnone]
        rw [hidx]
        apply ih
        · intro t ht
          have hne : t ≠ s := fun h => hP (h ▸ ht)
          rw [mapFind_mapSet_other strLt_order _ _ _ _ hne]
          exact hin t ht
        · intro t ht
          by_cases hts : t = s
          · subst hts
            exact Or.inr (mapFind_mapSet_same strLt_order _ _ _)
          · rw [mapFind_mapSet_other strLt_order _ _ _ _ hts]
            exact hout t ht
      · have hidx : mapIndex strLt ranked s = (0, ranked) := by
          simp [mapIndex, hzero]
        rw [hidx]
        exact ih ranked _ hin hout

/-- C12, as the code has it: `convert_kmer_string_to_index` has no failure path for a key
outside the universe.  For `index ≥ 0` with `index + 4 ^ k ≤ INT_MAX` and every table `x` it
returns a table: in the key order of `x`, the count of a key of the universe is written under
its base-4 value plus `index`, and the count of any other key under the rank `0` that
`perms_dict[key]` default-inserts. -/
theorem convert_foreign_keys (x : Dict) (k : Nat) (index : Int) (h0 : 0 ≤ index)
    (hmax : index + 4 ^ k ≤ INT_MAX) (fuel : Nat) (hfuel : 4 ^ k ≤ fuel + 1) :
    convert_kmer_string_to_index fuel x (k : Int) index =
      .ok (x.foldl (fun out e => mapSet natLt out (rankOrZero k index e.1) e.2) []) := by
  obtain ⟨perms_dict, hgen, hranks⟩ := ranked_table k index hmax fuel hfuel
  unfold convert_kmer_string_to_index
  simp only [hgen, hranks]
  congr 1
  have := translate_general (fun s => s.length = k ∧ ∀ c ∈ s, c ∈ ACTG)
    (fun s => rank4 s + index.toNat) x
    ((List.range' 0 (4 ^ k)).map (fun j => (kth [65, 67, 71, 84] k j, toSize (index + j)))) []
    ?_ ?_
  · rw [this]
    rfl
  · intro s hs
    obtain ⟨i, hi, rfl⟩ := (mem_universe_iff k s).1 hs
    exact mapFind_ranked k index h0 hmax i hi
  · intro s hs
    left
    rw [mapFind_eq_none strLt_order]
    intro hmem
    apply hs
    rw [mem_universe_iff]
    simp only [keys, List.map_map, List.mem_map, Function.comp, List.mem_range'_1, Nat.zero_le,
      Nat.zero_add, true_and] at hmem
    obtain ⟨i, hi, rfl⟩ := hmem
    exact ⟨i, hi, rfl⟩

/-- C12's amended statement at `k = 1`, `index = 1`, `x = {A:5, N:1}`: `{0:1, 1:5}`. -/
theorem convert_foreign_keys_witness :
    convert_kmer_string_to_index 3 [(str "A", 5), (str "N", 1)] 1 1 = .ok [(0, 1), (1, 5)] ∧
    convert_kmer_string_to_index 3 [(str "A", 5), (str "N", 1)] ((1 : Nat) : Int) 1 =
      .ok ([(str "A", 5), (str "N", 1)].foldl
        (fun out e => mapSet natLt out (rankOrZero 1 1 e.1) e.2) []) :=
  ⟨rfl, convert_foreign_keys [(str "A", 5), (str "N", 1)] 1 1 (by decide) (by decide) 3
    (by decide)⟩

/-- C12 fails at `k = 1`, `index = 0`, `x = {N:1}`: the call returns the table `{0:1}`, the key
`N` under rank `0`; with `x = {A:5, N:1}` the count of `N` replaces that of `A` under rank `0`.
Through `kmers_pointed` with `clean_up = false` and `key_as_int = true`, `x = "AN"` gives the
single rank `0`. -/
theorem convert_foreign_keys_counterexample :
    convert_kmer_string_to_index 3 [(str "N", 1)] 1 0 = .ok [(0, 1)] ∧
    convert_kmer_string_to_index 3 [(str "A", 5), (str "N", 1)] 1 0 = .ok [(0, 1)] ∧
    kmers_pointed 3 (str "AN") 1 false true false true false = .ok (.indices [0] [1]) :=
  ⟨rfl, rfl, rfl⟩

/-! ## `kmers_pointed` with `key_as_int` -/

theorem fold_count_step_noN (ws : List CString) (hws : ∀ w ∈ ws, hasN w = false)
    (drop_n : Bool) (d : Dict) :
    ws.foldl (count_step drop_n) d = ws.foldl (count_step false) d := by
  induction ws generalizing d with
  | nil => rfl
  | cons w ws ih =>
    have hw : hasN w = false := hws w (List.mem_cons_self _ _)
    have hstep : count_step drop_n d w = count_step false d w := by
      simp [count_step, hw]
    simp only [List.foldl_cons, hstep]
    exact ih (fun w' hw' => hws w' (List.mem_cons_of_mem _ hw')) _

/-- C15, as the code has it: `key_as_int` is tested before `anchor`, and its branch counts into
an empty table.  For `x` over `{A,C,G,T}`, `1 ≤ k ≤ |x|` and `4 ^ k + 1 ≤ INT_MAX`,
`kmers_pointed` with `key_as_int = true` returns the rank-keyed form of the sparse table: one
entry for each string that occurs in `x` as a window, under its base-4 value plus the offset,
with its number of windows; a string that does not occur has no entry, whatever `anchor` is. -/
theorem kmers_pointed_key_as_int (x : CString) (hxs : ∀ c ∈ x, c ∈ ACTG) (k : Nat)
    (hx : x.length < ULL) (hk1 : 1 ≤ k) (hk : k ≤ x.length)
    (simplify anchor clean_up starting_index : Bool) (hmax : (4 : Int) ^ k + 1 ≤ INT_MAX)
    (fuel : Nat) (hfuel : 4 ^ k ≤ fuel + 1) :
    ∃ d, make_kmer_paired_list x (k : Int) false [] = .ok d ∧
      kmers_pointed fuel x (k : Int) simplify anchor clean_up true starting_index =
        .ok (.indices ((keys d).map (fun s => rank4 s + (if starting_index then 1 else 0)))
          (values d)) ∧
      (∀ s, s ∈ keys d ↔ s ∈ windows x k) ∧
      (∀ s, s ∈ keys d → mapFind strLt d s = some ((windows x k).count s)) := by
  have hlen : (windows x k).length < ULL := by rw [length_windows]; omega
  obtain ⟨hs, hf, _⟩ := fold_count_spec false [] (sorted_nil strLt) (by simp) (windows x k) hlen
  have hcounted : counted false (windows x k) = windows x k := by simp [counted]
  rw [hcounted] at hf
  have hkeys : ∀ s, s ∈ keys ((windows x k).foldl (count_step false) []) ↔ s ∈ windows x k := by
    intro s
    rw [← not_iff_not, ← mapFind_eq_none strLt_order, hf s]
    simp [mapFind, List.count_eq_zero]
  have hnoN : ∀ w ∈ windows x k, hasN w = false := by
    intro w hw
    simp only [windows, List.mem_map] at hw
    obtain ⟨i, _, rfl⟩ := hw
    exact hasN_window x hxs k i
  refine ⟨_, make_kmer_paired_list_eq_fold x k hk1 hk hx false [], ?_, hkeys, ?_⟩
  · have hU : ∀ s ∈ keys ((windows x k).foldl (count_step false) []),
        s.length = k ∧ ∀ c ∈ s, c ∈ ACTG := by
      intro s hsk
      have := window_mem_universe x hxs k hk s ((hkeys s).1 hsk)
      rw [mem_kmerUniverse _ (by decide)] at this
      exact ⟨this.1, fun c hc => (mem_sortChars ACTG c).1 (this.2 c hc)⟩
    have hoff : (0 : Int) ≤ (if starting_index = true then 1 else 0) ∧
        (if starting_index = true then (1 : Int) else 0) + 4 ^ k ≤ INT_MAX ∧
        (if starting_index = true then (1 : Int) else 0).toNat =
          (if starting_index = true then 1 else 0) := by
      cases starting_index <;> simp <;> omega
    unfold kmers_pointed
    rw [is_valid_of_pos x (by omega)]
    simp only [Bool.not_true, Bool.false_eq_true, if_false, if_true]
    rw [make_kmer_paired_list_eq_fold x k hk1 hk hx clean_up [],
      fold_count_step_noN _ hnoN clean_up []]
    simp only [convert_eq_map _ hs k hU _ hoff.1 hoff.2.1 fuel hfuel, hoff.2.2]
    simp [wrap_custom_index, keys, values, List.map_map, Function.comp_def]
  · intro s hsk
    have hin := (hkeys s).1 hsk
    have hne : (windows x k).count s ≠ 0 := by
      rw [Ne, List.count_eq_zero]; exact fun h => h hin
    rw [hf s, if_neg hne]

/-- C15's amended statement at `x = "AACGT"`, `k = 1`, `starting_index = true`. -/
theorem kmers_pointed_key_as_int_witness :
    kmers_pointed 3 (str "AACGT") 1 false true true true true =
      .ok (.indices [1, 2, 3, 4] [2, 1, 1, 1]) ∧
    ∃ d, make_kmer_paired_list (str "AACGT") ((1 : Nat) : Int) false [] = .ok d ∧
      kmers_pointed 3 (str "AACGT") ((1 : Nat) : Int) false true true true true =
        .ok (.indices ((keys d).map (fun s => rank4 s + (if true then 1 else 0))) (values d)) ∧
      (∀ s, s ∈ keys d ↔ s ∈ windows (str "AACGT") 1) ∧
      (∀ s, s ∈ keys d → mapFind strLt d s = some ((windows (str "AACGT") 1).count s)) :=
  ⟨rfl, kmers_pointed_key_as_int (str "AACGT") (by decide) 1 (by decide) (by decide)
    (by decide) false true true true (by decide) 3 (by decide)⟩

/-- C15 fails at `x = "AA"`, `k = 1`, `anchor = true`, `key_as_int = true`: the table has the one
entry `0 ↦ 2`, not four entries. -/
theorem kmers_pointed_key_as_int_counterexample :
    kmers_pointed 3 (str "AA") 1 false true true true false = .ok (.indices [0] [2]) :=
  rfl
/-! ## Each pass of the successor loop is defined -/

theorem carry_scan (b : CString) (hi lo : Nat) (l r : CString)
    (h : carry b hi lo l = .ok r) :
    ∃ suf c rest new, l = suf ++ c :: rest ∧ (∀ d ∈ suf, ¬ d < hi) ∧ c < hi ∧
      index b ((find b c + 1) % ULL) = .ok new ∧
      r = List.replicate suf.length lo ++ new :: rest := by
  induction l generalizing r with
  | nil => simp [carry] at h
  | cons a l ih =>
    simp only [carry] at h
    by_cases ha : a < hi
    · rw [if_pos ha] at h
      cases hidx : index b ((find b a + 1) % ULL) with
      | error e => rw [hidx] at h; cases h
      | ok new =>
        rw [hidx] at h
        simp only [Except.ok.injEq] at h
        exact ⟨[], a, l, new, rfl, by simp, ha, hidx, by simp [h]⟩
    · rw [if_neg ha] at h
      cases hrec : carry b hi lo l with
      | error e => rw [hrec] at h; cases h
      | ok r' =>
        rw [hrec] at h
        simp only [Except.ok.injEq] at h
        obtain ⟨suf, c, rest, new, hl, hsuf, hc, hidx, hr⟩ := ih r' hrec
        refine ⟨a :: suf, c, rest, new, by simp [hl], ?_, hc, hidx, ?_⟩
        · intro d hd
          rcases List.mem_cons.1 hd with rfl | hd
          · exact ha
          · exact hsuf d hd
        · simp [← h, hr, List.replicate_succ]

theorem find_spec (b : CString) (c : Nat) (hc : c ∈ b) :
    find b c < b.length ∧ b.getD (find b c) 0 = c := by
  unfold find
  rw [if_pos hc]
  have hlt : b.indexOf c < b.length := List.indexOf_lt_length.2 hc
  refine ⟨hlt, ?_⟩
  rw [List.getD_eq_getElem b 0 hlt]
  exact List.getElem_indexOf hlt

theorem find_succ_lt (b : CString) (c : Nat) (hc : c ∈ b)
    (hlt : c < b.getD (b.length - 1) 0) : find b c + 1 < b.length := by
  obtain ⟨h1, h2⟩ := find_spec b c hc
  by_contra hge
  have : find b c = b.length - 1 := by omega
  rw [this] at h2
  omega

/-- C19: for an alphabet `b` of one or more distinct ASCII symbols and `k ≥ 1`, every pass of
the successor loop of `permute_kmers` is defined.  With `B` the sorted alphabet: whenever the list
has an element `s` followed by `t`, the scan of `s` from the right passes characters not below
the maximum and stops, before the left end, at a character `c` below the maximum; `c` is in `B`
at the index `j = B.find(c)`, `j + 1` is a valid index of `B`, and the pass yields `t`. -/
theorem permute_kmers_pass_defined (b : CString) (hd : b.Nodup) (hne : b ≠ [])
    (ha : ∀ c ∈ b, c < 128) (k : Nat) (_hk : 1 ≤ k) (fuel : Nat)
    (hfuel : b.length ^ k ≤ fuel + 1) :
    ∃ out, permute_kmers fuel (k : Int) b = .ok out ∧
      ∀ (i : Nat) (s t : CString), out[i]? = some s → out[i + 1]? = some t →
        ∃ pre c suf, s = pre ++ c :: suf ∧
          (∀ d ∈ suf, ¬ d < (sortChars b).getD ((sortChars b).length - 1) 0) ∧
          c < (sortChars b).getD ((sortChars b).length - 1) 0 ∧
          c ∈ sortChars b ∧ find (sortChars b) c + 1 < (sortChars b).length ∧
          successor (sortChars b) ((sortChars b).getD ((sortChars b).length - 1) 0)
            ((sortChars b).getD 0 0) s = .ok t ∧
          t = pre ++ (sortChars b).getD (find (sortChars b) c + 1) 0 ::
            List.replicate suf.length ((sortChars b).getD 0 0) := by
  have hn : 0 < b.length := List.length_pos.2 hne
  have hlen := ascii_length b hd ha
  have hB := sortChars_strict b hd
  have hnB : 0 < (sortChars b).length := by rw [length_sortChars]; exact hn
  have hlenB : (sortChars b).length < ULL := by rw [length_sortChars]; exact hlen
  refine ⟨_, permute_kmers_eq b hd hn hlen k fuel hfuel, ?_⟩
  intro i s t hs ht
  have hi1 : i + 1 < (sortChars b).length ^ k := by
    have := (List.getElem?_eq_some_iff.1 ht).1
    rwa [length_kmerUniverse] at this
  rw [getElem?_kmerUniverse _ k i (by omega)] at hs
  rw [getElem?_kmerUniverse _ k (i + 1) hi1] at ht
  simp only [Option.some.injEq] at hs ht
  subst hs ht
  have hsucc := successor_kth (sortChars b) hB hlenB k i hi1
  have hcarry := carry_digitsLE (sortChars b) hB hlenB k i hi1
  obtain ⟨suf, c, rest, new, hl, hsuf, hc, hidx, hr⟩ := carry_scan _ _ _ _ _ hcarry
  have hcB : c ∈ sortChars b := by
    apply mem_digitsLE (sortChars b) hnB k i c
    rw [hl]; simp
  have hj := find_succ_lt (sortChars b) c hcB hc
  have hnew : new = (sortChars b).getD (find (sortChars b) c + 1) 0 := by
    rw [index_of_lt (sortChars b) _ hj hlenB] at hidx
    simp only [Except.ok.injEq] at hidx
    exact hidx.symm
  refine ⟨rest.reverse, c, suf.reverse, ?_, ?_, hc, hcB, hj, hsucc, ?_⟩
  · simp [kth, hl]
  · intro d hd'
    exact hsuf d (List.mem_reverse.1 hd')
  · simp [kth, hr, hnew]

/-- C19 at `b = "AC"`, `k = 2`. -/
theorem permute_kmers_pass_defined_witness :
    ∃ out, permute_kmers 3 ((2 : Nat) : Int) (str "AC") = .ok out ∧
      ∀ (i : Nat) (s t : CString), out[i]? = some s → out[i + 1]? = some t →
        ∃ pre c suf, s = pre ++ c :: suf ∧
          (∀ d ∈ suf, ¬ d < (sortChars (str "AC")).getD ((sortChars (str "AC")).length - 1) 0) ∧
          c < (sortChars (str "AC")).getD ((sortChars (str "AC")).length - 1) 0 ∧
          c ∈ sortChars (str "AC") ∧
          find (sortChars (str "AC")) c + 1 < (sortChars (str "AC")).length ∧
          successor (sortChars (str "AC"))
            ((sortChars (str "AC")).getD ((sortChars (str "AC")).length - 1) 0)
            ((sortChars (str "AC")).getD 0 0) s = .ok t ∧
          t = pre ++ (sortChars (str "AC")).getD (find (sortChars (str "AC")) c + 1) 0 ::
            List.replicate suf.length ((sortChars (str "AC")).getD 0 0) :=
  permute_kmers_pass_defined (str "AC") (by decide) (by decide) (by decide) 2 (by decide) 3
    (by decide)

/-! ## Termination of the generation loop -/

theorem permute_loop_short (b : CString) (hb : b.Pairwise (fun a c => a < c)) (hn : 0 < b.length)
    (hlen : b.length < ULL) (k fuel i : Nat) (hfuel : i + 1 + fuel < b.length ^ k) :
    permute_loop b (b.getD (b.length - 1) 0) (b.getD 0 0)
        (List.replicate k (b.getD (b.length - 1) 0)) fuel ((List.range (i + 1)).map (kth b k)) =
      .error .no_return := by
  induction fuel generalizing i with
  | zero =>
    unfold permute_loop
    simp only [List.range_succ, List.map_append, List.map_cons, List.map_nil, getLast?_snoc]
    rw [if_pos ((kth_lt_last_iff b hb hn k i (by omega)).2 (by omega))]
  | succ f ih =>
    unfold permute_loop
    simp only [List.range_succ, List.map_append, List.map_cons, List.map_nil, getLast?_snoc]
    have hlast : i + 1 < b.length ^ k := by omega
    rw [if_pos ((kth_lt_last_iff b hb hn k i (by omega)).2 hlast)]
    simp only [successor_kth b hb hlen k i hlast]
    have := ih (i + 1) (by omega)
    simpa [List.range_succ] using this

theorem permute_kmers_short (b : CString) (hd : b.Nodup) (hn : 0 < b.length)
    (hlen : b.length < ULL) (k fuel : Nat) (hfuel : fuel + 1 < b.length ^ k) :
    permute_kmers fuel (k : Int) b = .error .no_return := by
  have hB := sortChars_strict b hd
  have hnB : 0 < (sortChars b).length := by rw [length_sortChars]; exact hn
  unfold permute_kmers
  simp only [getLast?_eq_getD _ hnB, head?_eq_getD _ hnB, Int.toNat_ofNat]
  have := permute_loop_short (sortChars b) hB hnB (by rw [length_sortChars]; exact hlen) k fuel 0
    (by rw [length_sortChars]; omega)
  rw [show List.range (0 + 1) = [0] from rfl, List.map_cons, List.map_nil, kth_zero] at this
  exact this

/-- C20: for an alphabet `b` of one or more distinct ASCII symbols and `k ≥ 1`, the generation
loop of `permute_kmers` terminates: it returns within `|b| ^ k - 1` passes (and has not
returned before), every element of the list is strictly smaller than the next and is at most
`k` copies of the maximum symbol, and the last element is `k` copies of the maximum symbol. -/
theorem permute_kmers_terminates (b : CString) (hd : b.Nodup) (hne : b ≠ [])
    (ha : ∀ c ∈ b, c < 128) (k : Nat) (_hk : 1 ≤ k) :
    ∃ out hi, hi ∈ b ∧ (∀ c ∈ b, c ≤ hi) ∧
      (∀ fuel, b.length ^ k ≤ fuel + 1 → permute_kmers fuel (k : Int) b = .ok out) ∧
      (∀ fuel, fuel + 1 < b.length ^ k → permute_kmers fuel (k : Int) b = .error .no_return) ∧
      out.Chain' (fun s t => strLt s t = true) ∧
      (∀ s ∈ out, strLt s (List.replicate k hi) = true ∨ s = List.replicate k hi) ∧
      out.getLast? = some (List.replicate k hi) ∧
      out.length = b.length ^ k := by
  have hn : 0 < b.length := List.length_pos.2 hne
  have hlen := ascii_length b hd ha
  have hB := sortChars_strict b hd
  have hnB : 0 < (sortChars b).length := by rw [length_sortChars]; exact hn
  refine ⟨kmerUniverse (sortChars b) k, (sortChars b).getD ((sortChars b).length - 1) 0,
    (mem_sortChars b _).1 (getD_mem _ _ (by omega)),
    fun c hc => le_getD_last _ hB c ((mem_sortChars b c).2 hc),
    fun fuel hfuel => permute_kmers_eq b hd hn hlen k fuel hfuel,
    fun fuel hfuel => permute_kmers_short b hd hn hlen k fuel hfuel,
    (kmerUniverse_sorted _ hB k).chain', ?_, getLast?_kmerUniverse _ hnB k, ?_⟩
  · intro s hs
    simp only [kmerUniverse, List.mem_map, List.mem_range] at hs
    obtain ⟨i, hi, rfl⟩ := hs
    by_cases hlast : i + 1 < (sortChars b).length ^ k
    · exact Or.inl ((kth_lt_last_iff _ hB hnB k i hi).2 hlast)
    · right
      have : i = (sortChars b).length ^ k - 1 := by omega
      rw [this, kth_last _ hnB k]
  · rw [length_kmerUniverse, length_sortChars]

/-- C20 at `b = "AC"`, `k = 2`: three passes, last element `CC`. -/
theorem permute_kmers_terminates_witness :
    permute_kmers 3 2 (str "AC") = .ok [str "AA", str "AC", str "CA", str "CC"] ∧
    permute_kmers 2 2 (str "AC") = .error .no_return ∧
    ∃ out hi, hi ∈ str "AC" ∧ (∀ c ∈ str "AC", c ≤ hi) ∧
      (∀ fuel, (str "AC").length ^ 2 ≤ fuel + 1 →
        permute_kmers fuel ((2 : Nat) : Int) (str "AC") = .ok out) ∧
      (∀ fuel, fuel + 1 < (str "AC").length ^ 2 →
        permute_kmers fuel ((2 : Nat) : Int) (str "AC") = .error .no_return) ∧
      out.Chain' (fun s t => strLt s t = true) ∧
      (∀ s ∈ out, strLt s (List.replicate 2 hi) = true ∨ s = List.replicate 2 hi) ∧
      out.getLast? = some (List.replicate 2 hi) ∧
      out.length = (str "AC").length ^ 2 :=
  ⟨rfl, rfl, permute_kmers_terminates (str "AC") (by decide) (by decide) (by decide) 2
    (by decide)⟩

/-! ## `kmers_pointed` and `kmers` -/

/-- C16 at `x = "ANCGT"`, `k = 2`: `kmers` returns the four windows `AN, CG, GT, NC`, while
`kmers_pointed` with `anchor = false` and the defaults `simplify = false`, `clean_up = true`,
`key_as_int = false` returns only `CG, GT`. -/
theorem kmers_pointed_differs_from_kmers :
    kmers 4 (str "ANCGT") 2 =
      .ok (.strings [str "AN", str "CG", str "GT", str "NC"] [1, 1, 1, 1]) ∧
    kmers_pointed 0 (str "ANCGT") 2 false false true false false =
      .ok (.strings [str "CG", str "GT"] [1, 1]) :=
  ⟨rfl, rfl⟩

theorem kmers_step_eq_count_step (d : Dict) (w : CString) :
    kmers_step d w = count_step false d w := by
  unfold kmers_step count_step
  cases h : mapFind strLt d w with
  | none => simp
  | some v =>
    by_cases hv : v = 0
    · subst hv; simp [ULL]
    · simp [hv]

theorem kmers_loop_eq_fold (x : CString) (k : Nat) (hk : k < ULL) (n passes fuel i : Nat)
    (d : Dict) (hin : i + passes = n) (hn : n < 2 ^ 32) (hnx : n ≤ x.length + 1)
    (hfuel : passes ≤ fuel) :
    kmers_loop x (k : Int) n fuel i d =
      .ok (((List.range' i passes).map (window x k)).foldl kmers_step d) := by
  induction passes generalizing fuel i d with
  | zero =>
    have hi : ¬ i < n := by omega
    unfold kmers_loop
    simp [hi]
  | succ p ih =>
    have hi : i < n := by omega
    obtain ⟨f, rfl⟩ : ∃ f, fuel = f + 1 := ⟨fuel - 1, by omega⟩
    have hx : ¬ x.length < i := by omega
    have hmod : (i + 1) % 2 ^ 32 = i + 1 := Nat.mod_eq_of_lt (by omega)
    unfold kmers_loop
    simp only [hi, if_true, substr, hx, if_false, toSize_natCast k hk, hmod]
    rw [ih f (i + 1) _ (by omega) (by omega)]
    simp [List.range'_succ, window]

/-- Without `clean_up` the two functions agree: for `1 ≤ k ≤ |x|` and fewer than `2 ^ 32`
windows, `kmers(x, k)` returns what `kmers_pointed` returns with `anchor = false`,
`simplify = false`, `clean_up = false`, `key_as_int = false`. -/
theorem kmers_eq_kmers_pointed_no_clean_up (x : CString) (k : Nat) (hx : x.length < 2 ^ 32)
    (hk1 : 1 ≤ k) (hk : k ≤ x.length) (fuel fuel2 : Nat) (hfuel : x.length + 1 - k ≤ fuel)
    (starting_index : Bool) :
    kmers fuel x (k : Int) =
      kmers_pointed fuel2 x (k : Int) false false false false starting_index := by
  have hxU : x.length < ULL := by rw [ULL_eq]; omega
  have hloop := kmers_loop_eq_fold x k (by omega) (x.length + 1 - k) (x.length + 1 - k) fuel 0 []
    (by omega) (by omega) (by omega) hfuel
  have hstep : kmers_step = count_step false := by
    funext d w; exact kmers_step_eq_count_step d w
  unfold kmers kmers_pointed
  rw [windowCount_natCast x k hk1 hk hxU, hloop, is_valid_of_pos x (by omega),
    make_kmer_paired_list_eq_fold x k hk1 hk hxU false []]
  simp [hstep, windows, List.range_eq_range', wrap_custom]

end Kmer
